import Mathlib

/-! # dotenv-loader: a shallow embedding of `dotenv.c`

A C string is modelled as the list of its characters up to (not including) the
terminating NUL; one list element stands for one `char`, and the `<ctype.h>`
classifiers look at its code only ("C" locale: every code above 127 is
neither a space nor a letter nor a digit).  In-place edits of a buffer
(writing a NUL, advancing a pointer) become functions returning the string
that the relevant pointer reads afterwards.  A file is the list of its
characters, read by `fgets` into buffers of at most `LINE_SIZE - 1`
characters.  The process environment is a map from names to values, and
`stderr` is the list of diagnostics printed so far.
-/

namespace Dotenv

/-! ## Constants of `dotenv.h` -/

/-- The macro `#define LINE_SIZE 1024`. -/
def LINE_SIZE : Nat := 1024

/-- The macro `#define MAX_VAR_NAME 256`. -/
def MAX_VAR_NAME : Nat := 256

/-- The struct `dotenv_entry` with its two buffers `name[LINE_SIZE]` and `value[LINE_SIZE]`. -/
structure dotenv_entry where
  name : List Char
  value : List Char
deriving DecidableEq, Repr

/-! ## `<ctype.h>` in the "C" locale -/

/-- The classifier `isspace`: space, `\t`, `\n`, `\v`, `\f`, `\r`. -/
def isspace (c : Char) : Bool :=
  c == ' ' || c == '\t' || c == '\n' || c == '\x0b' || c == '\x0c' || c == '\r'

/-- The classifier `isalpha`: `A`-`Z` or `a`-`z`. -/
def isalpha (c : Char) : Bool :=
  (65 ≤ c.toNat && c.toNat ≤ 90) || (97 ≤ c.toNat && c.toNat ≤ 122)

/-- The classifier `isalnum`: `isalpha` or `0`-`9`. -/
def isalnum (c : Char) : Bool :=
  isalpha c || (48 ≤ c.toNat && c.toNat ≤ 57)

/-! ## The process environment and `stderr` -/

/-- The environment table: `none` is "unset" (`getenv` returns `NULL`). -/
abbrev Env := List Char → Option (List Char)

/-- The call `getenv(name)`. -/
def getenv (env : Env) (name : List Char) : Option (List Char) := env name

/-- The call `setenv(name, value, 1)`: fails (`EINVAL`, environment untouched) when the
name is empty or contains `=`, and otherwise (re)binds the name. -/
def setenv (name value : List Char) (env : Env) : Env :=
  if name = [] ∨ '=' ∈ name then env
  else fun n => if n = name then some value else env n

/-- One message on `stderr`. -/
inductive Diag where
  /-- printed by `perror("Failed to open .env file")` -/
  | open_failed
  /-- printed by `fprintf(stderr, "Variable name exceeds maximum allowed length\n")` -/
  | name_too_long
  /-- printed by `fprintf(stderr, "Skipping invalid line: %s\n", trimmed)`; `text` is what `%s` printed -/
  | skipping (text : List Char)
deriving DecidableEq, Repr

/-! ## `trim_whitespace` -/

/-- The function `trim_whitespace(str)`: the string read through the returned pointer.

* `while (isspace(*str)) str++;` drops the leading whitespace;
* `if (*str == 0) return str;`
* `end` starts on the last character and walks back while `end > str` and
  `*end` is whitespace, so the first character always stays;
* `*(end + 1) = 0`, then one final `\r` is cut off if the string ends in it. -/
def trim_whitespace (str : List Char) : List Char :=
  match str.dropWhile isspace with
  | [] => []
  | c :: cs =>
    let s := c :: cs.rdropWhile isspace
    if s.getLast? = some '\r' then s.dropLast else s

/-- What the ORIGINAL pointer `str` reads after `trim_whitespace(str)` returned:
the leading whitespace is still in the buffer (only the returned pointer was
advanced), followed by the trimmed text and the NUL written after it. -/
def trim_whitespace_buffer (str : List Char) : List Char :=
  str.takeWhile isspace ++ trim_whitespace str

/-! ## `parse_value` -/

/-- The `switch (*value)` of the escape branch. -/
def unescape (c : Char) : Char :=
  if c = 'n' then '\n' else if c = 'r' then '\r' else if c = 't' then '\t' else c

/-- The `while (*value)` loop of the quoted branch; the Boolean is `escaped`,
the result is what was written through `write`. -/
def decode_quoted : Bool → List Char → List Char
  | _, [] => []
  | escaped, c :: cs =>
    if c = '\\' ∧ escaped = false then decode_quoted true cs
    else if c = '"' ∧ escaped = false then []
    else if escaped then unescape c :: decode_quoted false cs
    else c :: decode_quoted escaped cs

/-- The function `parse_value(value, output)`: the string left in `output`. -/
def parse_value (value : List Char) : List Char :=
  let value := trim_whitespace value
  if value.head? = some '"' then
    decode_quoted false value.tail
  else
    -- `strchr(value, '#')`, `*comment_pos = 0`
    let value := value.takeWhile (fun c => c != '#')
    -- `strncpy(output, trim_whitespace(value), LINE_SIZE - 1)`
    (trim_whitespace value).take (LINE_SIZE - 1)

/-! ## `is_valid_variable_name` and `parse_line` -/

/-- The function `is_valid_variable_name(name)`: the result and what it printed on `stderr`. -/
def is_valid_variable_name (name : List Char) : Bool × List Diag :=
  match name with
  | [] => (false, [])            -- `*name` is the NUL: neither a letter nor `_`
  | c :: cs =>
    if !isalpha c && c != '_' then (false, [])
    else if cs.any (fun p => !isalnum p && p != '_') then (false, [])
    else if name.length > MAX_VAR_NAME then (false, [Diag.name_too_long])
    else (true, [])

/-- What `parse_line` leaves behind when it returns `-1`. -/
structure parse_failure where
  /-- the caller's line, read again from its first character -/
  line : List Char
  /-- printed on `stderr` during the call -/
  err : List Diag
deriving DecidableEq, Repr

/-- The function `parse_line(line, entry)`: `.ok e` is "returns 0 with `*entry = e`",
`.error f` is "returns -1" (`*entry` is not written). -/
def parse_line (line : List Char) : Except parse_failure dotenv_entry :=
  if '=' ∈ line then
    -- `*delimiter = '\0'`
    let before := line.takeWhile (fun c => c != '=')
    let after := (line.dropWhile (fun c => c != '=')).tail
    let name := trim_whitespace before
    let valid := is_valid_variable_name name
    if valid.1 then
      .ok { name := name.take LINE_SIZE, value := parse_value after }
    else
      .error { line := trim_whitespace_buffer before, err := valid.2 }
  else
    .error { line := line, err := [] }

/-! ## `dotenv_load` -/

/-- The characters one `fgets` call stores, and the rest of the stream: at
most `room` characters, stopping after a newline. -/
def fgets_read : Nat → List Char → List Char × List Char
  | 0, s => ([], s)
  | _ + 1, [] => ([], [])
  | room + 1, c :: s =>
    if c = '\n' then ([c], s)
    else (c :: (fgets_read room s).1, (fgets_read room s).2)

/-- The call `fgets(line, size, file)`: `none` is the `NULL` returned at end of file. -/
def fgets (size : Nat) (stream : List Char) : Option (List Char × List Char) :=
  if stream = [] then none else some (fgets_read (size - 1) stream)

/-- The C string in a buffer `fgets` filled: it ends at the first NUL. -/
def cstr (buf : List Char) : List Char := buf.takeWhile (fun c => c != '\x00')

/-- What the loop of `dotenv_load` changes. -/
structure load_state where
  env : Env
  err : List Diag

/-- One iteration of the `while (fgets(...))` loop on the buffer `line`. -/
def loop_body (override : Bool) (line : List Char) (st : load_state) : load_state :=
  let trimmed := trim_whitespace (cstr line)
  if trimmed.head? = none ∨ trimmed.head? = some '#' then
    st
  else
    match parse_line trimmed with
    | .ok entry =>
      if override ∨ getenv st.env entry.name = none then
        { st with env := setenv entry.name entry.value st.env }
      else st
    | .error f =>
      { st with err := st.err ++ f.err ++ [Diag.skipping f.line] }

/-- The `while (fgets(line, LINE_SIZE, file))` loop; `fuel` bounds the number
of iterations. -/
def dotenv_load_loop (override : Bool) : Nat → List Char → load_state → load_state
  | 0, _, st => st
  | fuel + 1, stream, st =>
    match fgets LINE_SIZE stream with
    | none => st
    | some (line, rest) => dotenv_load_loop override fuel rest (loop_body override line st)

/-- Result of `dotenv_load`. -/
structure load_result where
  ret : Int
  env : Env
  err : List Diag

/-- The function `dotenv_load(path, override)`, where `file` is what `fopen(path, "r")`
found: `none` when the file cannot be opened, else its content.  Every
iteration consumes at least one character, so `content.length` iterations
always reach the end of the file. -/
def dotenv_load (file : Option (List Char)) (override : Bool) (env : Env) : load_result :=
  match file with
  | none => { ret := -1, env := env, err := [Diag.open_failed] }
  | some content =>
    let st := dotenv_load_loop override content.length content { env := env, err := [] }
    { ret := 0, env := st.env, err := st.err }

/-- The empty environment. -/
def empty_env : Env := fun _ => none

/-! ## Definitions used to state the properties -/

/-- A string with no whitespace at either end. -/
def edge_clean (s : List Char) : Prop :=
  (∀ c, s.head? = some c → isspace c = false) ∧ (∀ c, s.getLast? = some c → isspace c = false)

instance (s : List Char) : Decidable (edge_clean s) :=
  decidable_of_iff
    ((s.head?.all fun c => !isspace c) = true ∧ (s.getLast?.all fun c => !isspace c) = true)
    (by unfold edge_clean; cases s.head? <;> cases s.getLast? <;> simp)

/-- An ASCII letter, as the specification's grammar names it. -/
def ascii_letter (c : Char) : Prop := ('A' ≤ c ∧ c ≤ 'Z') ∨ ('a' ≤ c ∧ c ≤ 'z')

/-- An ASCII digit. -/
def ascii_digit (c : Char) : Prop := '0' ≤ c ∧ c ≤ '9'

/-- The identifier grammar in the specification's words: not empty, first
character an ASCII letter or underscore, every later character an ASCII
letter, digit or underscore, and at most 256 characters. -/
def is_identifier (name : List Char) : Prop :=
  name ≠ [] ∧
  (∀ c, name.head? = some c → ascii_letter c ∨ c = '_') ∧
  (∀ c ∈ name.tail, ascii_letter c ∨ ascii_digit c ∨ c = '_') ∧
  name.length ≤ 256

/-- A character that may occur in a valid name. -/
def name_char (c : Char) : Bool := isalnum c || c == '_'

/-- The escaping of one character: backslash, double quote, newline, carriage
return and tab become a backslash followed by `\`, `"`, `n`, `r`, `t`. -/
def escape_char (c : Char) : List Char :=
  if c = '\\' then ['\\', '\\']
  else if c = '"' then ['\\', '"']
  else if c = '\n' then ['\\', 'n']
  else if c = '\r' then ['\\', 'r']
  else if c = '\t' then ['\\', 't']
  else [c]

/-- The escaped body of a value. -/
def escape : List Char → List Char
  | [] => []
  | c :: cs => escape_char c ++ escape cs

/-- The quoted form of a value: the escaped body between double quotes. -/
def encode (v : List Char) : List Char := '"' :: (escape v ++ ['"'])

/-- The claimed cut: the text before the first `#` that is not immediately
preceded by a backslash (`prev` tells whether the previous character was one). -/
def cut_unescaped_hash : Bool → List Char → List Char
  | _, [] => []
  | prev, c :: cs =>
    if c = '#' ∧ prev = false then [] else c :: cut_unescaped_hash (c == '\\') cs

/-- The buffers the successive `fgets(line, LINE_SIZE, file)` calls of the
loop deliver, for at most `fuel` calls. -/
def file_lines : Nat → List Char → List (List Char)
  | 0, _ => []
  | fuel + 1, stream =>
    match fgets LINE_SIZE stream with
    | none => []
    | some (line, rest) => line :: file_lines fuel rest

/-- All the buffers of a file: `content.length` calls reach the end of file. -/
def lines_of (content : List Char) : List (List Char) :=
  file_lines content.length content

/-- The loop of `dotenv_load` run over a list of buffers. -/
def run_lines (override : Bool) (lines : List (List Char)) (st : load_state) : load_state :=
  lines.foldl (fun st line => loop_body override line st) st

/-- The entry a buffer hands to the environment: none for a blank line, a
comment line and a line `parse_line` rejects. -/
def line_entry (line : List Char) : Option dotenv_entry :=
  let trimmed := trim_whitespace (cstr line)
  if trimmed.head? = none ∨ trimmed.head? = some '#' then none
  else (parse_line trimmed).toOption

/-- The entries of the accepted lines of a file, in file order. -/
def accepted_entries (content : List Char) : List dotenv_entry :=
  (lines_of content).filterMap line_entry

/-- A buffer one `fgets` call can deliver: not empty, at most `LINE_SIZE - 1`
characters, and no newline before its last character. -/
def is_buffer (l : List Char) : Prop :=
  l ≠ [] ∧ l.length ≤ LINE_SIZE - 1 ∧ '\n' ∉ l.dropLast

/-- The sequence of buffers of some file: every buffer but the last ends in a
newline or fills the whole line buffer. -/
def buffers_ok : List (List Char) → Prop
  | [] => True
  | l :: ls =>
    is_buffer l ∧ (ls = [] ∨ l.getLast? = some '\n' ∨ l.length = LINE_SIZE - 1) ∧ buffers_ok ls

/-- A quoted body that the decoder reads to its end and that leaves it outside
an escape: it has no unescaped double quote and does not end in an unpaired
backslash (`escaped` tells whether the previous character was an unpaired
backslash). -/
def open_body : Bool → List Char → Bool
  | escaped, [] => !escaped
  | escaped, c :: cs =>
    if escaped then open_body false cs
    else if c = '\\' then open_body true cs
    else if c = '"' then false
    else open_body false cs

/-- The file with Windows line endings: every newline becomes a carriage
return followed by a newline. -/
def crlf : List Char → List Char
  | [] => []
  | c :: cs => if c = '\n' then '\r' :: '\n' :: crlf cs else c :: crlf cs

/-! ## Facts about `trim_whitespace` -/

theorem isspace_ne_cr {c : Char} (h : isspace c = false) : c ≠ '\r' := by
  rintro rfl
  simp [isspace] at h

theorem rdropWhile_append_of_pos {p : Char → Bool} (l r : List Char)
    (h : ∀ c ∈ r, p c = true) : (l ++ r).rdropWhile p = l.rdropWhile p := by
  induction r using List.reverseRecOn with
  | nil => simp
  | append_singleton r a ih =>
    rw [← List.append_assoc, List.rdropWhile_concat_pos _ _ _ (h a (by simp))]
    exact ih (fun c hc => h c (by simp [hc]))

theorem rdropWhile_append_cons_of_neg {p : Char → Bool} (l : List Char) (c : Char)
    (t : List Char) (h : p c = false) :
    (l ++ c :: t).rdropWhile p = l ++ c :: t.rdropWhile p := by
  induction t using List.reverseRecOn with
  | nil => simpa using List.rdropWhile_concat_neg p l c (by simp [h])
  | append_singleton t a ih =>
    have e : l ++ c :: (t ++ [a]) = (l ++ c :: t) ++ [a] := by simp
    rw [e, List.rdropWhile_concat, List.rdropWhile_concat, ih]
    split <;> simp

theorem getLast?_rdropWhile_not {p : Char → Bool} (l : List Char) (c : Char)
    (h : (l.rdropWhile p).getLast? = some c) : p c = false := by
  have hne : l.rdropWhile p ≠ [] := by
    intro e
    simp [e] at h
  have h2 := List.rdropWhile_last_not p l hne
  rw [List.getLast?_eq_getLast _ hne] at h
  simp only [Option.some.injEq] at h
  rw [h] at h2
  simpa using h2

/-- The final carriage-return test of `trim_whitespace` never fires: the text
is both ends trimmed. -/
theorem trim_whitespace_eq (s : List Char) :
    trim_whitespace s = (s.dropWhile isspace).rdropWhile isspace := by
  unfold trim_whitespace
  cases hd : s.dropWhile isspace with
  | nil => simp
  | cons c cs =>
    have hc : isspace c = false := by
      have := List.head?_dropWhile_not isspace s
      rw [hd] at this
      simpa using this
    have e : (c :: cs).rdropWhile isspace = c :: cs.rdropWhile isspace :=
      rdropWhile_append_cons_of_neg [] c cs hc
    have hl : (c :: cs.rdropWhile isspace).getLast? ≠ some '\r' := by
      intro h
      rw [← e] at h
      have := getLast?_rdropWhile_not _ _ h
      simp [isspace] at this
    simp only [hl, if_false, e]

theorem trim_whitespace_sandwich (l core r : List Char)
    (hl : ∀ c ∈ l, isspace c = true) (hr : ∀ c ∈ r, isspace c = true)
    (hc : edge_clean core) : trim_whitespace (l ++ core ++ r) = core := by
  rw [trim_whitespace_eq, List.append_assoc, List.dropWhile_append_of_pos hl]
  cases core with
  | nil =>
    have : List.dropWhile isspace r = [] := List.dropWhile_eq_nil_iff.2 (by simpa using hr)
    simp [this]
  | cons c cs =>
    have h1 : isspace c = false := hc.1 c rfl
    rw [List.cons_append, List.dropWhile_cons_of_neg (by simp [h1]), ← List.cons_append,
      rdropWhile_append_of_pos _ _ hr]
    exact List.rdropWhile_eq_self_iff.2 (fun hne => by
      have := hc.2 _ (List.getLast?_eq_getLast _ hne)
      simp [this])

theorem trim_whitespace_edge_clean (s : List Char) : edge_clean (trim_whitespace s) := by
  rw [trim_whitespace_eq]
  constructor
  · intro c h
    cases hd : s.dropWhile isspace with
    | nil => simp [hd] at h
    | cons d ds =>
      have hdn : isspace d = false := by
        have := List.head?_dropWhile_not isspace s
        rw [hd] at this
        simpa using this
      have e : (d :: ds).rdropWhile isspace = d :: ds.rdropWhile isspace :=
        rdropWhile_append_cons_of_neg [] d ds hdn
      rw [hd, e] at h
      simp at h
      rw [← h]; exact hdn
  · intro c h
    exact getLast?_rdropWhile_not _ _ h

/-! ## The identifier grammar -/

theorem isalpha_iff (c : Char) : isalpha c = true ↔ ascii_letter c := by
  simp [isalpha, ascii_letter, Char.le_def, Char.toNat, UInt32.le_def, BitVec.le_def, UInt32.toNat]

theorem isalnum_iff (c : Char) : isalnum c = true ↔ ascii_letter c ∨ ascii_digit c := by
  simp [isalnum, isalpha_iff]
  simp [ascii_digit, Char.le_def, Char.toNat, UInt32.le_def, BitVec.le_def, UInt32.toNat]

theorem is_valid_variable_name_iff (name : List Char) :
    (is_valid_variable_name name).1 = true ↔ is_identifier name := by
  cases name with
  | nil => simp [is_valid_variable_name, is_identifier]
  | cons c cs =>
    simp only [is_valid_variable_name, is_identifier, MAX_VAR_NAME]
    have ha : ∀ p, (ascii_letter p ∨ ascii_digit p ∨ p = '_') ↔ (isalnum p = true ∨ p = '_') := by
      intro p; rw [isalnum_iff, or_assoc]
    simp only [ne_eq, reduceCtorEq, not_false_eq_true, List.head?_cons, Option.some.injEq,
      forall_eq', List.tail_cons, true_and, ha]
    simp only [← isalpha_iff]
    split_ifs with a b d
    · simp at a; simp [a]
    · simp at b
      obtain ⟨p, hp, hp1, hp2⟩ := b
      simp only [Bool.false_eq_true, false_iff, not_and]
      intro _ h
      have := h p hp
      simp [hp1, hp2] at this
    · simp only [Bool.false_eq_true, false_iff, not_and]
      intro _ _; omega
    · simp only [true_iff]
      simp at a b
      refine ⟨?_, ?_, by omega⟩
      · by_cases h : isalpha c = true
        · exact Or.inl h
        · exact Or.inr (a (by simpa using h))
      · intro p hp
        by_cases h : isalnum p = true
        · exact Or.inl h
        · exact Or.inr (b p hp (by simpa using h))

theorem valid_name_chars {name : List Char} (h : (is_valid_variable_name name).1 = true) :
    ∀ c ∈ name, name_char c = true := by
  rw [is_valid_variable_name_iff] at h
  obtain ⟨_, h1, h2, _⟩ := h
  cases name with
  | nil => simp
  | cons c cs =>
    intro d hd
    rcases List.mem_cons.1 hd with rfl | hd
    · rcases h1 d rfl with h | h
      · simp [name_char, isalnum, (isalpha_iff d).2 h]
      · simp [name_char, h]
    · rcases h2 d hd with h | h | h
      · simp [name_char, (isalnum_iff d).2 (Or.inl h)]
      · simp [name_char, (isalnum_iff d).2 (Or.inr h)]
      · simp [name_char, h]

theorem name_char_not_space {c : Char} (h : name_char c = true) : isspace c = false := by
  cases hs : isspace c with
  | false => rfl
  | true =>
    simp only [isspace, Bool.or_eq_true, beq_iff_eq] at hs
    rcases hs with ((((rfl | rfl) | rfl) | rfl) | rfl) | rfl <;>
      simp [name_char, isalnum, isalpha] at h

theorem name_char_ne_eq {c : Char} (h : name_char c = true) : c ≠ '=' := by
  rintro rfl
  simp [name_char, isalnum, isalpha] at h

theorem name_char_ne_nul {c : Char} (h : name_char c = true) : c ≠ '\x00' := by
  rintro rfl
  simp [name_char, isalnum, isalpha] at h

theorem name_char_ne_hash {c : Char} (h : name_char c = true) : c ≠ '#' := by
  rintro rfl
  simp [name_char, isalnum, isalpha] at h

theorem valid_name_ne_nil {name : List Char} (h : (is_valid_variable_name name).1 = true) :
    name ≠ [] := ((is_valid_variable_name_iff name).1 h).1

theorem valid_name_length {name : List Char} (h : (is_valid_variable_name name).1 = true) :
    name.length ≤ 256 := ((is_valid_variable_name_iff name).1 h).2.2.2

theorem valid_name_no_eq {name : List Char} (h : (is_valid_variable_name name).1 = true) :
    '=' ∉ name := fun hm => name_char_ne_eq (valid_name_chars h _ hm) rfl

theorem edge_clean_of_no_space {s : List Char} (h : ∀ c ∈ s, isspace c = false) :
    edge_clean s :=
  ⟨fun c hc => h c (List.mem_of_mem_head? hc), fun c hc => h c (List.mem_of_mem_getLast? hc)⟩

theorem valid_name_edge_clean {name : List Char} (h : (is_valid_variable_name name).1 = true) :
    edge_clean name :=
  edge_clean_of_no_space (fun c hc => name_char_not_space (valid_name_chars h c hc))

/-! ## Facts about `parse_line` -/

theorem takeWhile_ne_append_cons (a : Char) (l r : List Char) (h : a ∉ l) :
    (l ++ a :: r).takeWhile (fun c => c != a) = l := by
  induction l with
  | nil => simp
  | cons c cs ih =>
    have hc : c ≠ a := fun e => h (by simp [e])
    have hcs : a ∉ cs := fun e => h (by simp [e])
    simp [List.takeWhile_cons, hc, ih hcs]

theorem dropWhile_ne_append_cons (a : Char) (l r : List Char) (h : a ∉ l) :
    (l ++ a :: r).dropWhile (fun c => c != a) = a :: r := by
  induction l with
  | nil => simp
  | cons c cs ih =>
    have hc : c ≠ a := fun e => h (by simp [e])
    have hcs : a ∉ cs := fun e => h (by simp [e])
    simp [List.dropWhile_cons, hc, ih hcs]

theorem takeWhile_ne_of_not_mem (a : Char) (l : List Char) (h : a ∉ l) :
    l.takeWhile (fun c => c != a) = l :=
  List.takeWhile_eq_self_iff.2 (fun c hc => by
    have : c ≠ a := fun e => h (e ▸ hc)
    simpa using this)

/-- The two halves `parse_line` works on, when the text before the first `=` is given. -/
theorem parse_line_split (before after : List Char) (h : '=' ∉ before) :
    parse_line (before ++ '=' :: after) =
      if (is_valid_variable_name (trim_whitespace before)).1 = true then
        .ok { name := trim_whitespace before, value := parse_value after }
      else
        .error { line := trim_whitespace_buffer before,
                 err := (is_valid_variable_name (trim_whitespace before)).2 } := by
  unfold parse_line
  rw [if_pos (by simp), takeWhile_ne_append_cons _ _ _ h, dropWhile_ne_append_cons _ _ _ h]
  simp only [List.tail_cons]
  split_ifs with hv
  · congr 2
    apply List.take_of_length_le
    have := valid_name_length hv
    simp only [LINE_SIZE]; omega
  · rfl

theorem mem_split_first (a : Char) (l : List Char) (h : a ∈ l) :
    ∃ r, l = l.takeWhile (fun c => c != a) ++ a :: r ∧ a ∉ l.takeWhile (fun c => c != a) := by
  induction l with
  | nil => simp at h
  | cons c cs ih =>
    by_cases hc : c = a
    · subst hc
      exact ⟨cs, by simp, by simp⟩
    · have hm : a ∈ cs := by
        rcases List.mem_cons.1 h with e | e
        · exact absurd e.symm hc
        · exact e
      obtain ⟨r, hr, hn⟩ := ih hm
      refine ⟨r, ?_, ?_⟩
      · simp only [List.takeWhile_cons, bne_iff_ne, ne_eq, hc, not_false_eq_true, decide_True,
          if_true, List.cons_append]
        rw [← hr]
      · simp only [List.takeWhile_cons, bne_iff_ne, ne_eq, hc, not_false_eq_true, decide_True,
          if_true, List.mem_cons, not_or]
        exact ⟨fun e => hc e.symm, hn⟩

theorem trim_whitespace_of_edge_clean {s : List Char} (h : edge_clean s) :
    trim_whitespace s = s := by
  simpa using trim_whitespace_sandwich [] s [] (by simp) (by simp) h

/-- C3: `parse_line` accepts a line exactly when it contains `=` and the
trimmed text before the first `=` obeys the identifier grammar (non-empty,
letter or underscore first, then letters, digits or underscores, at most 256
characters); the accepted entry carries exactly that text as its name.  A name
of 256 characters is accepted and one of 257 is rejected, and the lines of the
test suite are classified as the tests expect. -/
theorem parse_line_accepts_iff_identifier :
    (∀ line : List Char,
      ((∃ e, parse_line line = .ok e) ↔
        ('=' ∈ line ∧ is_identifier (trim_whitespace (line.takeWhile (fun c => c != '='))))) ∧
      (∀ e, parse_line line = .ok e →
        e.name = trim_whitespace (line.takeWhile (fun c => c != '=')) ∧ is_identifier e.name)) ∧
    (∀ (k : Nat) (v : List Char),
      (∃ e, parse_line (List.replicate (k + 1) 'A' ++ '=' :: v) = .ok e) ↔ k + 1 ≤ 256) ∧
    (parse_line "1INVALID=value".toList).toOption = none ∧
    (parse_line "INVALID-NAME=value".toList).toOption = none ∧
    (parse_line "VAR$NAME=value".toList).toOption = none ∧
    (parse_line "=value".toList).toOption = none ∧
    (parse_line "VALID_NAME=value".toList).toOption
      = some { name := "VALID_NAME".toList, value := "value".toList } ∧
    (parse_line "VALID2=value".toList).toOption
      = some { name := "VALID2".toList, value := "value".toList } ∧
    (parse_line "NAME_WITH_SPACE = value".toList).toOption
      = some { name := "NAME_WITH_SPACE".toList, value := "value".toList } := by
  have key : ∀ line : List Char, ∀ e, parse_line line = .ok e →
      '=' ∈ line ∧ e.name = trim_whitespace (line.takeWhile (fun c => c != '=')) ∧
        is_identifier e.name := by
    intro line e he
    by_cases hm : '=' ∈ line
    · obtain ⟨r, hr, hn⟩ := mem_split_first _ _ hm
      rw [hr, parse_line_split _ _ hn] at he
      split_ifs at he with hv
      simp only [Except.ok.injEq] at he
      subst he
      exact ⟨hm, rfl, (is_valid_variable_name_iff _).1 hv⟩
    · simp [parse_line, hm] at he
  refine ⟨fun line => ⟨⟨?_, ?_⟩, fun e he => (key line e he).2⟩, ?_, ?_⟩
  · rintro ⟨e, he⟩
    obtain ⟨h1, h2, h3⟩ := key line e he
    exact ⟨h1, h2 ▸ h3⟩
  · rintro ⟨hm, hid⟩
    obtain ⟨r, hr, hn⟩ := mem_split_first _ _ hm
    rw [hr, parse_line_split _ _ hn, if_pos ((is_valid_variable_name_iff _).2 hid)]
    exact ⟨_, rfl⟩
  · intro k v
    have hn : '=' ∉ List.replicate (k + 1) 'A' := by
      simp [List.mem_replicate]
    have hc : edge_clean (List.replicate (k + 1) 'A') :=
      edge_clean_of_no_space (fun c hc => by
        rw [List.eq_of_mem_replicate hc]; decide)
    rw [parse_line_split _ _ hn, trim_whitespace_of_edge_clean hc]
    have hid : (is_valid_variable_name (List.replicate (k + 1) 'A')).1 = true ↔ k + 1 ≤ 256 := by
      rw [is_valid_variable_name_iff]
      constructor
      · intro h; simpa using h.2.2.2
      · intro h
        refine ⟨by simp [List.replicate_succ], ?_, ?_, by simpa using h⟩
        · intro c hc
          simp only [List.replicate_succ, List.head?_cons, Option.some.injEq] at hc
          subst hc
          exact Or.inl (Or.inl (by decide))
        · intro c hc
          simp only [List.replicate_succ, List.tail_cons] at hc
          rw [List.eq_of_mem_replicate hc]
          exact Or.inl (Or.inl (by decide))
    constructor
    · rintro ⟨e, he⟩
      split_ifs at he with hv
      exact hid.1 hv
    · intro h
      rw [if_pos (hid.2 h)]
      exact ⟨_, rfl⟩
  · refine ⟨by decide, by decide, by decide, by decide, by decide, by decide, by decide⟩

/-! ## The quoted-value escaping -/

theorem decode_quoted_escape (v t : List Char) :
    decode_quoted false (escape v ++ '"' :: t) = v := by
  induction v with
  | nil => simp [escape, decode_quoted]
  | cons c cs ih =>
    simp only [escape, escape_char]
    split_ifs with h1 h2 h3 h4 h5
    · subst h1; simp [decode_quoted, unescape, ih]
    · subst h2; simp [decode_quoted, unescape, ih]
    · subst h3; simp [decode_quoted, unescape, ih]
    · subst h4; simp [decode_quoted, unescape, ih]
    · subst h5; simp [decode_quoted, unescape, ih]
    · simp [decode_quoted, h1, h2, ih]

theorem trim_whitespace_quote_cons (body t : List Char) :
    trim_whitespace ('"' :: (body ++ '"' :: t)) = '"' :: (body ++ '"' :: t.rdropWhile isspace) := by
  rw [trim_whitespace_eq, List.dropWhile_cons_of_neg (by decide)]
  exact rdropWhile_append_cons_of_neg ('"' :: body) '"' t (by decide)

/-- C4: decoding the quoted encoding of a value gives the value back, for
every value whose encoding fits in the line buffer (the bound keeps the
decoder inside the buffers of the C code). -/
theorem parse_value_encode (v : List Char) (_hfit : (encode v).length ≤ LINE_SIZE - 1) :
    parse_value (encode v) = v := by
  unfold parse_value encode
  rw [trim_whitespace_quote_cons]
  simpa using decode_quoted_escape v []

/-- C4, at a value made of the five escaped characters and plain text. -/
theorem parse_value_encode_witness :
    (encode "a\"b\\c\n\r\t d".toList).length ≤ LINE_SIZE - 1 ∧
      parse_value (encode "a\"b\\c\n\r\t d".toList) = "a\"b\\c\n\r\t d".toList :=
  ⟨by decide, parse_value_encode _ (by decide)⟩

/-! ## Quoted and unquoted values -/

theorem decode_quoted_plain (b t : List Char) (hb : ∀ c ∈ b, c ≠ '"' ∧ c ≠ '\\') :
    decode_quoted false (b ++ '"' :: t) = b := by
  induction b with
  | nil => simp [decode_quoted]
  | cons c cs ih =>
    have hc := hb c (by simp)
    simp [decode_quoted, hc.1, hc.2, ih (fun d hd => hb d (by simp [hd]))]

/-- C5: a line `n="b"t` with a valid name `n` and a body `b` free of double
quotes and backslashes parses to the entry `(n, b)`, whatever `b` contains
otherwise (`#`, `=`, spaces at either end) and whatever text `t` follows the
closing quote. -/
theorem parse_line_quoted (n b t : List Char) (hn : (is_valid_variable_name n).1 = true)
    (hb : ∀ c ∈ b, c ≠ '"' ∧ c ≠ '\\') :
    parse_line (n ++ '=' :: '"' :: (b ++ '"' :: t)) = .ok { name := n, value := b } := by
  rw [parse_line_split _ _ (valid_name_no_eq hn),
    trim_whitespace_of_edge_clean (valid_name_edge_clean hn), if_pos hn]
  unfold parse_value
  rw [trim_whitespace_quote_cons]
  simp [decode_quoted_plain b _ hb]

/-- C5, at `KEY="  a#b = c "  # comment`. -/
theorem parse_line_quoted_witness :
    parse_line ("KEY".toList ++ '=' :: '"' :: ("  a#b = c ".toList ++ '"' :: "  # comment".toList))
      = .ok { name := "KEY".toList, value := "  a#b = c ".toList } :=
  parse_line_quoted "KEY".toList "  a#b = c ".toList "  # comment".toList (by decide) (by decide)

theorem rdropWhile_append_rtakeWhile (p : Char → Bool) (l : List Char) :
    l.rdropWhile p ++ l.rtakeWhile p = l := by
  simp [List.rdropWhile, List.rtakeWhile, ← List.reverse_append]

theorem space_ne_hash {c : Char} (h : isspace c = true) : (c != '#') = true := by
  simp only [isspace, Bool.or_eq_true, beq_iff_eq] at h
  rcases h with ((((rfl | rfl) | rfl) | rfl) | rfl) | rfl <;> decide

theorem trim_whitespace_append_left (l s : List Char) (hl : ∀ c ∈ l, isspace c = true) :
    trim_whitespace (l ++ s) = trim_whitespace s := by
  rw [trim_whitespace_eq, trim_whitespace_eq, List.dropWhile_append_of_pos hl]

theorem trim_whitespace_append_right (s r : List Char) (hr : ∀ c ∈ r, isspace c = true) :
    trim_whitespace (s ++ r) = trim_whitespace s := by
  rw [trim_whitespace_eq, trim_whitespace_eq]
  by_cases hs : ∀ c ∈ s, isspace c = true
  · have h1 : List.dropWhile isspace (s ++ r) = [] :=
      List.dropWhile_eq_nil_iff.2 (by
        intro c hc
        rcases List.mem_append.1 hc with h | h
        · exact hs c h
        · exact hr c h)
    have h2 : List.dropWhile isspace s = [] := List.dropWhile_eq_nil_iff.2 hs
    rw [h1, h2]
  · have hne : List.dropWhile isspace s ≠ [] := fun e => hs (List.dropWhile_eq_nil_iff.1 e)
    rw [List.dropWhile_append, if_neg (by simpa using hne), rdropWhile_append_of_pos _ _ hr]

/-- Cutting at the first `#` and trimming gives the same text whether or not
the input was trimmed first. -/
theorem trim_takeWhile_trim (s : List Char) :
    trim_whitespace ((trim_whitespace s).takeWhile (fun c => c != '#'))
      = trim_whitespace (s.takeWhile (fun c => c != '#')) := by
  have hA : ∀ X : List Char,
      trim_whitespace ((X.rdropWhile isspace).takeWhile (fun c => c != '#'))
        = trim_whitespace (X.takeWhile (fun c => c != '#')) := by
    intro X
    have hX := rdropWhile_append_rtakeWhile isspace X
    have hW : ∀ c ∈ X.rtakeWhile isspace, isspace c = true :=
      fun c hc => List.mem_rtakeWhile_imp hc
    conv_rhs => rw [← hX]
    by_cases hh : ∀ c ∈ X.rdropWhile isspace, (c != '#') = true
    · rw [List.takeWhile_append_of_pos hh, List.takeWhile_eq_self_iff.2 hh,
        List.takeWhile_eq_self_iff.2 (fun c hc => space_ne_hash (hW c hc)),
        trim_whitespace_append_right _ _ hW]
    · rw [List.takeWhile_append, if_neg]
      intro e
      exact hh (List.takeWhile_eq_self_iff.1 (List.IsPrefix.eq_of_length
        ( List.takeWhile_prefix _) e))
  have hB : ∀ X : List Char,
      trim_whitespace ((X.dropWhile isspace).takeWhile (fun c => c != '#'))
        = trim_whitespace (X.takeWhile (fun c => c != '#')) := by
    intro X
    conv_rhs => rw [← List.takeWhile_append_dropWhile isspace X]
    have hW : ∀ c ∈ X.takeWhile isspace, isspace c = true :=
      fun c hc => List.mem_takeWhile_imp hc
    rw [List.takeWhile_append_of_pos (fun c hc => space_ne_hash (hW c hc)),
      trim_whitespace_append_left _ _ hW]
  rw [trim_whitespace_eq s, hA, hB]

theorem head?_trim_whitespace (s : List Char) :
    (trim_whitespace s).head? = (s.dropWhile isspace).head? := by
  rw [trim_whitespace_eq]
  cases hd : s.dropWhile isspace with
  | nil => simp
  | cons d ds =>
    have hdn : isspace d = false := by
      have := List.head?_dropWhile_not isspace s
      rw [hd] at this
      simpa using this
    have e : (d :: ds).rdropWhile isspace = d :: ds.rdropWhile isspace :=
      rdropWhile_append_cons_of_neg [] d ds hdn
    rw [e]; rfl

/-- The unquoted branch of `parse_value`: the text before the first `#`,
trimmed, cut to the buffer size. -/
theorem parse_value_unquoted (text : List Char)
    (h : (text.dropWhile isspace).head? ≠ some '"') :
    parse_value text
      = (trim_whitespace (text.takeWhile (fun c => c != '#'))).take (LINE_SIZE - 1) := by
  unfold parse_value
  simp only [head?_trim_whitespace, h, if_false, trim_takeWhile_trim]

theorem space_ne_eq {c : Char} (h : isspace c = true) : c ≠ '=' := by
  simp only [isspace, Bool.or_eq_true, beq_iff_eq] at h
  rcases h with ((((rfl | rfl) | rfl) | rfl) | rfl) | rfl <;> decide

theorem length_trim_whitespace_le (s : List Char) : (trim_whitespace s).length ≤ s.length := by
  rw [trim_whitespace_eq]
  exact le_trans ( List.rdropWhile_prefix isspace _).length_le
    (List.dropWhile_suffix isspace).length_le

/-- The value of an unquoted text `w3 v w4`, optionally followed by `# c`. -/
theorem parse_value_plain (v c w3 w4 : List Char)
    (hw3 : ∀ x ∈ w3, isspace x = true) (hw4 : ∀ x ∈ w4, isspace x = true)
    (hv1 : '#' ∉ v) (hv2 : v.head? ≠ some '"') (hv3 : edge_clean v)
    (hfit : v.length ≤ LINE_SIZE - 1) :
    parse_value (w3 ++ v ++ w4 ++ '#' :: c) = v ∧ parse_value (w3 ++ v ++ w4) = v := by
  have hno : '#' ∉ w3 ++ v ++ w4 := by
    intro hm
    simp only [List.mem_append] at hm
    rcases hm with (hm | hm) | hm
    · simpa using space_ne_hash (hw3 _ hm)
    · exact hv1 hm
    · simpa using space_ne_hash (hw4 _ hm)
  have hq : ∀ t : List Char, (t.dropWhile isspace).head? ≠ some '"' →
      ((w3 ++ v ++ w4 ++ t).dropWhile isspace).head? ≠ some '"' := by
    intro t ht
    rw [List.append_assoc, List.append_assoc, List.dropWhile_append_of_pos hw3]
    cases v with
    | nil =>
      rw [List.nil_append, List.dropWhile_append]
      have : List.dropWhile isspace w4 = [] := List.dropWhile_eq_nil_iff.2 hw4
      simp only [this, List.isEmpty_nil, if_true]
      exact ht
    | cons x xs =>
      have hx : isspace x = false := hv3.1 x rfl
      rw [List.cons_append, List.dropWhile_cons_of_neg (by simp [hx])]
      simpa using hv2
  have htrim : trim_whitespace (w3 ++ v ++ w4) = v := trim_whitespace_sandwich _ _ _ hw3 hw4 hv3
  constructor
  · rw [parse_value_unquoted _ (hq ('#' :: c)
        (by rw [List.dropWhile_cons_of_neg (by decide)]; simp)),
      takeWhile_ne_append_cons _ _ _ hno,
      htrim, List.take_of_length_le hfit]
  · have := hq [] (by simp)
    rw [List.append_nil] at this
    rw [parse_value_unquoted _ this, takeWhile_ne_of_not_mem _ _ hno, htrim,
      List.take_of_length_le hfit]

/-- C6: an unquoted line `w1 n w2 = w3 v w4 # c`, and the same line without
`# c`, parses to the entry `(n, v)`: `n` is a valid name, the `w`s are runs of
whitespace, and `v` is a value text (at most `LINE_SIZE - 1` characters, as
any text inside a line buffer is) that has no `#`, does not start with a
double quote and has no whitespace at either end; `v` may be empty and may
contain `=` and inner spaces. -/
theorem parse_line_unquoted (n v c w1 w2 w3 w4 : List Char)
    (hn : (is_valid_variable_name n).1 = true)
    (hw1 : ∀ x ∈ w1, isspace x = true) (hw2 : ∀ x ∈ w2, isspace x = true)
    (hw3 : ∀ x ∈ w3, isspace x = true) (hw4 : ∀ x ∈ w4, isspace x = true)
    (hv1 : '#' ∉ v) (hv2 : v.head? ≠ some '"') (hv3 : edge_clean v)
    (hfit : v.length ≤ LINE_SIZE - 1) :
    parse_line (w1 ++ n ++ w2 ++ '=' :: (w3 ++ v ++ w4 ++ '#' :: c))
        = .ok { name := n, value := v } ∧
      parse_line (w1 ++ n ++ w2 ++ '=' :: (w3 ++ v ++ w4)) = .ok { name := n, value := v } := by
  have hno : '=' ∉ w1 ++ n ++ w2 := by
    intro hm
    simp only [List.mem_append] at hm
    rcases hm with (hm | hm) | hm
    · exact space_ne_eq (hw1 _ hm) rfl
    · exact valid_name_no_eq hn hm
    · exact space_ne_eq (hw2 _ hm) rfl
  have htrim : trim_whitespace (w1 ++ n ++ w2) = n :=
    trim_whitespace_sandwich _ _ _ hw1 hw2 (valid_name_edge_clean hn)
  obtain ⟨h1, h2⟩ := parse_value_plain v c w3 w4 hw3 hw4 hv1 hv2 hv3 hfit
  constructor
  · rw [parse_line_split _ _ hno, htrim, if_pos hn, h1]
  · rw [parse_line_split _ _ hno, htrim, if_pos hn, h2]

/-- C6, at the line `  BOTH_SPACE  = \t b=c d  # note`. -/
theorem parse_line_unquoted_witness :
    parse_line ("  ".toList ++ "BOTH_SPACE".toList ++ "  ".toList
        ++ '=' :: (" \t".toList ++ "b=c d".toList ++ "  ".toList ++ '#' :: " note".toList))
        = .ok { name := "BOTH_SPACE".toList, value := "b=c d".toList } ∧
      parse_line ("  ".toList ++ "BOTH_SPACE".toList ++ "  ".toList
        ++ '=' :: (" \t".toList ++ "b=c d".toList ++ "  ".toList))
        = .ok { name := "BOTH_SPACE".toList, value := "b=c d".toList } :=
  parse_line_unquoted "BOTH_SPACE".toList "b=c d".toList " note".toList
    "  ".toList "  ".toList " \t".toList "  ".toList
    (by decide) (by decide) (by decide) (by decide) (by decide) (by decide) (by decide)
    (by decide) (by decide)

/-! ## Comments in unquoted values -/

/-- C7 fails on the code: the unquoted text `a\#b # c` decodes to `a\`, cut at
the `#` that follows the backslash, not to the `a\#b` that cutting at the
first unescaped `#` would give. -/
theorem parse_value_escaped_hash_counterexample :
    ("a\\#b # c".toList.dropWhile isspace).head? ≠ some '"' ∧
      trim_whitespace (cut_unescaped_hash false "a\\#b # c".toList) = "a\\#b".toList ∧
      parse_value "a\\#b # c".toList = "a\\".toList ∧
      parse_value "a\\#b # c".toList
        ≠ trim_whitespace (cut_unescaped_hash false "a\\#b # c".toList) := by
  decide

/-- C7 as amended: in unquoted mode (the first non-blank character is not a
double quote) the value is the whitespace-trimmed text before the first `#`,
whether or not a backslash precedes that `#`, taken verbatim and cut to
`LINE_SIZE - 1` characters. -/
theorem parse_value_unquoted_first_hash (text : List Char)
    (h : (text.dropWhile isspace).head? ≠ some '"') :
    parse_value text
        = (trim_whitespace (text.takeWhile (fun c => c != '#'))).take (LINE_SIZE - 1) ∧
      (text.length ≤ LINE_SIZE - 1 →
        parse_value text = trim_whitespace (text.takeWhile (fun c => c != '#'))) := by
  refine ⟨parse_value_unquoted text h, fun hfit => ?_⟩
  rw [parse_value_unquoted text h]
  apply List.take_of_length_le
  exact le_trans (length_trim_whitespace_le _)
    (le_trans ( List.takeWhile_prefix _).length_le hfit)

/-- C7 as amended, at the text ` a\#b # c`, whose value is `a\`. -/
theorem parse_value_unquoted_first_hash_witness :
    (" a\\#b # c".toList.dropWhile isspace).head? ≠ some '"' ∧
      " a\\#b # c".toList.length ≤ LINE_SIZE - 1 ∧
      trim_whitespace (" a\\#b # c".toList.takeWhile (fun c => c != '#')) = "a\\".toList ∧
      parse_value " a\\#b # c".toList
        = trim_whitespace (" a\\#b # c".toList.takeWhile (fun c => c != '#')) :=
  ⟨by decide, by decide, by decide,
    (parse_value_unquoted_first_hash " a\\#b # c".toList (by decide)).2 (by decide)⟩

/-! ## The buffers `fgets` delivers -/

theorem fgets_read_append (k : Nat) (s : List Char) :
    (fgets_read k s).1 ++ (fgets_read k s).2 = s := by
  induction k generalizing s with
  | zero => simp [fgets_read]
  | succ k ih =>
    cases s with
    | nil => simp [fgets_read]
    | cons c cs =>
      simp only [fgets_read]
      split_ifs with h
      · simp
      · simp [ih cs]

theorem fgets_read_fst_ne_nil (k : Nat) (c : Char) (cs : List Char) :
    (fgets_read (k + 1) (c :: cs)).1 ≠ [] := by
  simp only [fgets_read]
  split_ifs <;> simp

theorem fgets_read_snd_length_lt (k : Nat) (c : Char) (cs : List Char) :
    (fgets_read (k + 1) (c :: cs)).2.length < (c :: cs).length := by
  have h1 := fgets_read_append (k + 1) (c :: cs)
  have h2 := fgets_read_fst_ne_nil k c cs
  have h3 := congrArg List.length h1
  rw [List.length_append] at h3
  have : 0 < (fgets_read (k + 1) (c :: cs)).1.length := List.length_pos.2 h2
  omega

theorem fgets_read_line_size_lt (c : Char) (cs : List Char) :
    (fgets_read (LINE_SIZE - 1) (c :: cs)).2.length < cs.length + 1 :=
  fgets_read_snd_length_lt 1022 c cs

theorem file_lines_fuel (fuel1 fuel2 : Nat) (s : List Char)
    (h1 : s.length ≤ fuel1) (h2 : s.length ≤ fuel2) :
    file_lines fuel1 s = file_lines fuel2 s := by
  induction fuel1 generalizing fuel2 s with
  | zero =>
    have : s = [] := List.length_eq_zero.1 (by omega)
    subst this
    cases fuel2 <;> simp [file_lines, fgets]
  | succ f ih =>
    cases s with
    | nil => cases fuel2 <;> simp [file_lines, fgets]
    | cons c cs =>
      cases fuel2 with
      | zero => simp at h2
      | succ g =>
        have hlt := fgets_read_line_size_lt c cs
        simp only [file_lines, fgets, reduceCtorEq, if_false, List.cons.injEq, true_and]
        apply ih
        · simp only [List.length_cons] at h1; omega
        · simp only [List.length_cons] at h2; omega

theorem lines_of_nil : lines_of [] = [] := rfl

theorem lines_of_cons (c : Char) (cs : List Char) :
    lines_of (c :: cs)
      = (fgets_read (LINE_SIZE - 1) (c :: cs)).1
          :: lines_of (fgets_read (LINE_SIZE - 1) (c :: cs)).2 := by
  have hlt := fgets_read_line_size_lt c cs
  simp only [lines_of, List.length_cons, file_lines, fgets, reduceCtorEq, if_false,
    List.cons.injEq, true_and]
  apply file_lines_fuel
  · omega
  · exact le_refl _

theorem dotenv_load_loop_eq (override : Bool) (fuel : Nat) (s : List Char) (st : load_state) :
    dotenv_load_loop override fuel s st = run_lines override (file_lines fuel s) st := by
  induction fuel generalizing s st with
  | zero => rfl
  | succ f ih =>
    simp only [dotenv_load_loop, file_lines]
    cases fgets LINE_SIZE s with
    | none => rfl
    | some p => simp [ih, run_lines]

theorem dotenv_load_some (content : List Char) (override : Bool) (env : Env) :
    dotenv_load (some content) override env
      = { ret := 0,
          env := (run_lines override (lines_of content) { env := env, err := [] }).env,
          err := (run_lines override (lines_of content) { env := env, err := [] }).err } := by
  simp [dotenv_load, dotenv_load_loop_eq, lines_of]

/-- No character of the file is lost: the buffers, one after the other, are
the file. -/
theorem lines_of_flatten (s : List Char) : (lines_of s).flatten = s := by
  generalize h : s.length = n
  induction n using Nat.strong_induction_on generalizing s with
  | _ n ih =>
    cases s with
    | nil => rfl
    | cons c cs =>
      rw [lines_of_cons, List.flatten_cons,
        ih _ (by rw [← h]; exact fgets_read_line_size_lt c cs) _ rfl, fgets_read_append]

/-! ## The loop of `dotenv_load` -/

theorem parse_line_ok_name {line : List Char} {e : dotenv_entry}
    (h : parse_line line = .ok e) : (is_valid_variable_name e.name).1 = true := by
  by_cases hm : '=' ∈ line
  · obtain ⟨r, hr, hn⟩ := mem_split_first _ _ hm
    rw [hr, parse_line_split _ _ hn] at h
    split_ifs at h with hv
    simp only [Except.ok.injEq] at h
    subst h
    exact hv
  · simp [parse_line, hm] at h

theorem line_entry_name {line : List Char} {e : dotenv_entry}
    (h : line_entry line = some e) : (is_valid_variable_name e.name).1 = true := by
  unfold line_entry at h
  simp only at h
  split_ifs at h
  cases hp : parse_line (trim_whitespace (cstr line)) with
  | error f => simp [hp, Except.toOption] at h
  | ok e2 =>
    simp only [hp, Except.toOption, Option.some.injEq] at h
    subst h
    exact parse_line_ok_name hp

theorem setenv_valid {name : List Char} (h : (is_valid_variable_name name).1 = true)
    (value : List Char) (env : Env) :
    setenv name value env = fun n => if n = name then some value else env n := by
  simp [setenv, valid_name_ne_nil h, valid_name_no_eq h]

theorem setenv_other (name value : List Char) (env : Env) (n : List Char) (h : n ≠ name) :
    setenv name value env n = env n := by
  unfold setenv
  split_ifs <;> simp [h]

/-- The environment after one iteration, in terms of the entry of the buffer. -/
theorem loop_body_env (override : Bool) (line : List Char) (st : load_state) :
    (loop_body override line st).env =
      match line_entry line with
      | none => st.env
      | some e =>
        if override = true ∨ st.env e.name = none then setenv e.name e.value st.env else st.env := by
  unfold loop_body line_entry
  simp only
  split_ifs with h
  · rfl
  · cases hp : parse_line (trim_whitespace (cstr line)) with
    | error f => simp [Except.toOption]
    | ok e =>
      simp only [Except.toOption, getenv]
      split_ifs <;> rfl

theorem run_lines_nil (override : Bool) (st : load_state) : run_lines override [] st = st := rfl

theorem run_lines_cons (override : Bool) (l : List Char) (ls : List (List Char))
    (st : load_state) :
    run_lines override (l :: ls) st = run_lines override ls (loop_body override l st) := rfl

theorem run_lines_append (override : Bool) (l1 l2 : List (List Char)) (st : load_state) :
    run_lines override (l1 ++ l2) st = run_lines override l2 (run_lines override l1 st) := by
  simp [run_lines, List.foldl_append]

theorem run_lines_keeps (lines : List (List Char)) (st : load_state) (n v : List Char)
    (h : st.env n = some v) : (run_lines false lines st).env n = some v := by
  induction lines generalizing st with
  | nil => exact h
  | cons l ls ih =>
    rw [run_lines_cons]
    apply ih
    rw [loop_body_env]
    cases line_entry l with
    | none => exact h
    | some e =>
      simp only [Bool.false_eq_true, false_or]
      split_ifs with hu
      · rw [setenv_other _ _ _ _ (fun e2 => by rw [e2, hu] at h; cases h)]
        exact h
      · exact h

/-- C1: with `override = false`, every variable that is set before
`dotenv_load` has the same value after it, whatever the file contains (and
also when the file cannot be opened). -/
theorem dotenv_load_no_override_keeps (file : Option (List Char)) (env : Env)
    (n v : List Char) (h : env n = some v) :
    (dotenv_load file false env).env n = some v := by
  cases file with
  | none => exact h
  | some content =>
    rw [dotenv_load_some]
    exact run_lines_keeps _ _ n v h

/-- C1, at the environment `DEBUG=false` and the file `DEBUG=true`. -/
theorem dotenv_load_no_override_keeps_witness :
    setenv "DEBUG".toList "false".toList empty_env "DEBUG".toList = some "false".toList ∧
      (dotenv_load (some "DEBUG=true\n".toList) false
        (setenv "DEBUG".toList "false".toList empty_env)).env "DEBUG".toList
        = some "false".toList :=
  ⟨by decide, dotenv_load_no_override_keeps _ _ _ _ (by decide)⟩

theorem run_lines_override_env (lines : List (List Char)) (st : load_state) :
    (run_lines true lines st).env
      = (lines.filterMap line_entry).foldl (fun env e => setenv e.name e.value env) st.env := by
  induction lines generalizing st with
  | nil => rfl
  | cons l ls ih =>
    rw [run_lines_cons, ih, loop_body_env]
    cases hl : line_entry l with
    | none => simp [List.filterMap_cons, hl]
    | some e => simp [List.filterMap_cons, hl]

theorem foldl_setenv_last (es : List dotenv_entry) (env : Env) (n : List Char)
    (e : dotenv_entry)
    (hv : ∀ x ∈ es, (is_valid_variable_name x.name).1 = true)
    (h : es.reverse.find? (fun x => decide (x.name = n)) = some e) :
    es.foldl (fun env e => setenv e.name e.value env) env n = some e.value := by
  induction es using List.reverseRecOn with
  | nil => simp at h
  | append_singleton es x ih =>
    rw [List.foldl_append, List.foldl_cons, List.foldl_nil]
    rw [List.reverse_append, List.reverse_singleton, List.singleton_append,
      List.find?_cons] at h
    by_cases hx : x.name = n
    · simp only [hx, decide_True, Option.some.injEq] at h
      subst h
      rw [setenv_valid (hv x (by simp))]
      simp [hx]
    · simp only [hx, decide_False] at h
      rw [setenv_other _ _ _ _ (fun e2 => hx e2.symm)]
      exact ih (fun y hy => hv y (by simp [hy])) h

/-- C2: with `override = true`, a name that some accepted line of the file
carries is bound, after `dotenv_load`, to the decoded value of the last
accepted line with that name, whatever the environment held before. -/
theorem dotenv_load_override_last_wins (content : List Char) (env : Env) (n : List Char)
    (e : dotenv_entry)
    (h : (accepted_entries content).reverse.find? (fun x => decide (x.name = n)) = some e) :
    (dotenv_load (some content) true env).env n = some e.value := by
  rw [dotenv_load_some]
  simp only
  rw [run_lines_override_env]
  exact foldl_setenv_last _ _ n e
    (fun x hx => by
      obtain ⟨l, _, hl⟩ := List.mem_filterMap.1 hx
      exact line_entry_name hl) h

/-- C2, at the file `DUP=first`, `DUP=second`, `DUP=third` and an
environment that already binds `DUP`. -/
theorem dotenv_load_override_last_wins_witness :
    (accepted_entries "DUP=first\nDUP=second\nDUP=third\n".toList).reverse.find?
        (fun x => decide (x.name = "DUP".toList))
        = some { name := "DUP".toList, value := "third".toList } ∧
      (dotenv_load (some "DUP=first\nDUP=second\nDUP=third\n".toList) true
        (setenv "DUP".toList "old".toList empty_env)).env "DUP".toList
        = some "third".toList :=
  ⟨by decide,
    dotenv_load_override_last_wins _ _ _ { name := "DUP".toList, value := "third".toList }
      (by decide)⟩

/-! ## Lines of a file -/

theorem fgets_read_succ_cons (k : Nat) (c : Char) (s : List Char) :
    fgets_read (k + 1) (c :: s)
      = if c = '\n' then ([c], s) else (c :: (fgets_read k s).1, (fgets_read k s).2) := rfl

theorem fgets_read_of_no_newline (k : Nat) (a b : List Char) (hnl : '\n' ∉ a) (hk : a.length ≤ k) :
    fgets_read k (a ++ b)
      = (a ++ (fgets_read (k - a.length) b).1, (fgets_read (k - a.length) b).2) := by
  induction a generalizing k with
  | nil => simp
  | cons c cs ih =>
    cases k with
    | zero => simp at hk
    | succ k =>
      have hc : c ≠ '\n' := fun e => hnl (by simp [e])
      have hcs : '\n' ∉ cs := fun e => hnl (by simp [e])
      have hk2 : cs.length ≤ k := by simpa using hk
      rw [List.cons_append, fgets_read_succ_cons, if_neg hc, ih k hcs hk2]
      simp

theorem fgets_read_line (k : Nat) (l rest : List Char) (hnl : '\n' ∉ l) (hk : l.length < k) :
    fgets_read k (l ++ '\n' :: rest) = (l ++ ['\n'], rest) := by
  rw [fgets_read_of_no_newline k l _ hnl (le_of_lt hk)]
  obtain ⟨m, hm⟩ : ∃ m, k - l.length = m + 1 := ⟨k - l.length - 1, by omega⟩
  simp [hm, fgets_read]

theorem fgets_read_last (k : Nat) (l : List Char) (hnl : '\n' ∉ l) (hk : l.length ≤ k) :
    fgets_read k l = (l, []) := by
  have := fgets_read_of_no_newline k l [] hnl hk
  rw [List.append_nil] at this
  rw [this]
  cases k - l.length <;> simp [fgets_read]

theorem fgets_read_append_right (k : Nat) (pre s : List Char)
    (h : pre.getLast? = some '\n') :
    fgets_read k (pre ++ s) = ((fgets_read k pre).1, (fgets_read k pre).2 ++ s) := by
  induction pre generalizing k with
  | nil => simp at h
  | cons c cs ih =>
    cases k with
    | zero => simp [fgets_read]
    | succ k =>
      rw [List.cons_append, fgets_read_succ_cons, fgets_read_succ_cons]
      split_ifs with hc
      · rfl
      · have hcs : cs.getLast? = some '\n' := by
          cases cs with
          | nil =>
            simp only [List.getLast?_singleton, Option.some.injEq] at h
            exact absurd h hc
          | cons d ds => simpa [List.getLast?_cons_cons] using h
        rw [ih k hcs]

theorem lines_of_ne_nil (s : List Char) (h : s ≠ []) :
    lines_of s
      = (fgets_read (LINE_SIZE - 1) s).1 :: lines_of (fgets_read (LINE_SIZE - 1) s).2 := by
  cases s with
  | nil => exact absurd rfl h
  | cons c cs => exact lines_of_cons c cs

/-- A text line that fits the buffer is one buffer of the file. -/
theorem lines_of_line (l rest : List Char) (hnl : '\n' ∉ l)
    (hfit : l.length + 1 ≤ LINE_SIZE - 1) :
    lines_of (l ++ '\n' :: rest) = (l ++ ['\n']) :: lines_of rest := by
  rw [lines_of_ne_nil _ (by simp), fgets_read_line _ _ _ hnl (by omega)]

theorem lines_of_last (l : List Char) (hnl : '\n' ∉ l) (hne : l ≠ [])
    (hfit : l.length ≤ LINE_SIZE - 1) : lines_of l = [l] := by
  rw [lines_of_ne_nil _ hne, fgets_read_last _ _ hnl hfit]
  rfl

theorem getLast?_of_append_eq {a b s : List Char} {c : Char} (h : a ++ b = s)
    (hb : b ≠ []) (hs : s.getLast? = some c) : b.getLast? = some c := by
  subst h
  rw [List.getLast?_append_of_ne_nil _ hb] at hs
  exact hs

/-- Buffers never straddle a newline: after content that ends a line, the
buffers of what follows are those of that text alone. -/
theorem lines_of_append (pre s : List Char) (h : pre = [] ∨ pre.getLast? = some '\n') :
    lines_of (pre ++ s) = lines_of pre ++ lines_of s := by
  generalize hn : pre.length = n
  induction n using Nat.strong_induction_on generalizing pre with
  | _ n ih =>
    rcases h with rfl | h
    · simp [lines_of_nil]
    · cases pre with
      | nil => simp at h
      | cons c cs =>
        rw [lines_of_ne_nil _ (by simp), fgets_read_append_right _ _ _ h, lines_of_cons]
        simp only [List.cons_append, List.cons.injEq, true_and]
        have hlt := fgets_read_line_size_lt c cs
        apply ih _ (by rw [← hn]; simpa using hlt) _ _ rfl
        by_cases hr : (fgets_read (LINE_SIZE - 1) (c :: cs)).2 = []
        · exact Or.inl hr
        · exact Or.inr (getLast?_of_append_eq (fgets_read_append _ _) hr h)

theorem fgets_read_fst_length_le (k : Nat) (s : List Char) :
    (fgets_read k s).1.length ≤ k := by
  induction k generalizing s with
  | zero => simp [fgets_read]
  | succ k ih =>
    cases s with
    | nil => simp [fgets_read]
    | cons c cs =>
      rw [fgets_read_succ_cons]
      split_ifs
      · simp
      · simpa using ih cs

theorem fgets_read_fst_no_inner_newline (k : Nat) (s : List Char) :
    '\n' ∉ (fgets_read k s).1.dropLast := by
  induction k generalizing s with
  | zero => simp [fgets_read]
  | succ k ih =>
    cases s with
    | nil => simp [fgets_read]
    | cons c cs =>
      rw [fgets_read_succ_cons]
      split_ifs with hc
      · simp
      · by_cases he : (fgets_read k cs).1 = []
        · simp [he]
        · rw [List.dropLast_cons_of_ne_nil he]
          intro hm
          rcases List.mem_cons.1 hm with hm | hm
          · exact hc hm.symm
          · exact ih cs hm

theorem fgets_read_full (k : Nat) (s : List Char) (h : (fgets_read k s).2 ≠ []) :
    (fgets_read k s).1.getLast? = some '\n' ∨ (fgets_read k s).1.length = k := by
  induction k generalizing s with
  | zero => simp [fgets_read]
  | succ k ih =>
    cases s with
    | nil => simp [fgets_read] at h
    | cons c cs =>
      rw [fgets_read_succ_cons] at h ⊢
      split_ifs at h ⊢ with hc
      · left; simp [hc]
      · rcases ih cs h with h1 | h1
        · left
          have hne : (fgets_read k cs).1 ≠ [] := by
            intro e; simp [e] at h1
          obtain ⟨d, ds, hd⟩ := List.exists_cons_of_ne_nil hne
          simp only [hd, List.getLast?_cons_cons] at h1 ⊢
          exact h1
        · right; simp [h1]

theorem buffers_ok_lines_of (s : List Char) : buffers_ok (lines_of s) := by
  generalize h : s.length = n
  induction n using Nat.strong_induction_on generalizing s with
  | _ n ih =>
    cases s with
    | nil => simp [lines_of_nil, buffers_ok]
    | cons c cs =>
      rw [lines_of_cons]
      refine ⟨⟨fgets_read_fst_ne_nil 1022 c cs, fgets_read_fst_length_le _ _,
        fgets_read_fst_no_inner_newline _ _⟩, ?_,
        ih _ (by rw [← h]; exact fgets_read_line_size_lt c cs) _ rfl⟩
      by_cases hr : (fgets_read (LINE_SIZE - 1) (c :: cs)).2 = []
      · left; rw [hr]; rfl
      · right; exact fgets_read_full _ _ hr

theorem fgets_read_buffer (l rest : List Char) (hl : is_buffer l)
    (hf : rest = [] ∨ l.getLast? = some '\n' ∨ l.length = LINE_SIZE - 1) :
    fgets_read (LINE_SIZE - 1) (l ++ rest) = (l, rest) := by
  obtain ⟨hne, hlen, hnl⟩ := hl
  obtain ⟨init, x, rfl⟩ : ∃ init x, l = init ++ [x] :=
    ⟨l.dropLast, l.getLast hne, (List.dropLast_append_getLast hne).symm⟩
  rw [List.dropLast_concat] at hnl
  rw [List.length_append, List.length_singleton] at hlen
  rw [List.append_assoc, fgets_read_of_no_newline _ _ _ hnl (by omega)]
  obtain ⟨m, hm⟩ : ∃ m, LINE_SIZE - 1 - init.length = m + 1 :=
    ⟨LINE_SIZE - 1 - init.length - 1, by omega⟩
  rw [hm, List.singleton_append, fgets_read_succ_cons]
  by_cases hx : x = '\n'
  · rw [if_pos hx]
  · rw [if_neg hx]
    have : fgets_read m rest = ([], rest) := by
      rcases hf with rfl | hf | hf
      · cases m <;> rfl
      · rw [List.getLast?_append_of_ne_nil _ (by simp)] at hf
        simp only [List.getLast?_singleton, Option.some.injEq] at hf
        exact absurd hf hx
      · rw [List.length_append, List.length_singleton] at hf
        have : m = 0 := by omega
        subst this; rfl
    rw [this]

theorem lines_of_flatten_of_buffers_ok (ls : List (List Char)) (h : buffers_ok ls) :
    lines_of ls.flatten = ls := by
  induction ls with
  | nil => rfl
  | cons l ls ih =>
    obtain ⟨hl, hf, hls⟩ := h
    have hf2 : ls.flatten = [] ∨ l.getLast? = some '\n' ∨ l.length = LINE_SIZE - 1 := by
      rcases hf with rfl | hf
      · left; rfl
      · right; exact hf
    rw [List.flatten_cons, lines_of_ne_nil _ (by simp [hl.1]), fgets_read_buffer l _ hl hf2,
      ih hls]

theorem buffers_ok_erase (ls1 : List (List Char)) (bad : List Char) (ls2 : List (List Char))
    (h : buffers_ok (ls1 ++ bad :: ls2)) : buffers_ok (ls1 ++ ls2) := by
  induction ls1 with
  | nil => exact h.2.2
  | cons l ls1 ih =>
    obtain ⟨hl, hf, hls⟩ := h
    refine ⟨hl, ?_, ih hls⟩
    rcases hf with hf | hf
    · simp at hf
    · exact Or.inr hf

/-! ## Blank lines, comment lines and rejected lines -/

theorem space_ne_nul {c : Char} (h : isspace c = true) : (c != '\x00') = true := by
  simp only [isspace, Bool.or_eq_true, beq_iff_eq] at h
  rcases h with ((((rfl | rfl) | rfl) | rfl) | rfl) | rfl <;> decide

theorem cstr_of_no_nul (s : List Char) (h : ∀ c ∈ s, (c != '\x00') = true) : cstr s = s :=
  List.takeWhile_eq_self_iff.2 h

theorem cstr_append_of_no_nul (a b : List Char) (h : ∀ c ∈ a, (c != '\x00') = true) :
    cstr (a ++ b) = a ++ cstr b := by
  unfold cstr
  rw [List.takeWhile_append_of_pos h]

/-- A line is skipped silently when its trimmed text is empty or starts with `#`. -/
theorem loop_body_skip (override : Bool) (line : List Char) (st : load_state)
    (h : (trim_whitespace (cstr line)).head? = none
      ∨ (trim_whitespace (cstr line)).head? = some '#') :
    loop_body override line st = st := by
  unfold loop_body
  simp only [h, if_true]

theorem trim_cstr_head_of_blank_or_comment (line : List Char)
    (h : (∀ c ∈ line, isspace c = true) ∨ (line.dropWhile isspace).head? = some '#') :
    (trim_whitespace (cstr line)).head? = none
      ∨ (trim_whitespace (cstr line)).head? = some '#' := by
  rcases h with h | h
  · left
    rw [cstr_of_no_nul _ (fun c hc => space_ne_nul (h c hc)), head?_trim_whitespace,
      List.dropWhile_eq_nil_iff.2 h]
    rfl
  · right
    have hW : ∀ c ∈ line.takeWhile isspace, isspace c = true :=
      fun c hc => List.mem_takeWhile_imp hc
    cases hd : line.dropWhile isspace with
    | nil => simp [hd] at h
    | cons d ds =>
      rw [hd] at h
      simp only [List.head?_cons, Option.some.injEq] at h
      subst h
      have e : line = line.takeWhile isspace ++ '#' :: ds := by
        rw [← hd, List.takeWhile_append_dropWhile]
      rw [e, cstr_append_of_no_nul _ _ (fun c hc => space_ne_nul (hW c hc)),
        head?_trim_whitespace, List.dropWhile_append_of_pos hW]
      have hh : isspace '#' = false := by decide
      simp [cstr, List.takeWhile_cons, List.dropWhile_cons, hh]

theorem run_lines_env_congr (override : Bool) (lines : List (List Char))
    (st1 st2 : load_state) (h : st1.env = st2.env) :
    (run_lines override lines st1).env = (run_lines override lines st2).env := by
  induction lines generalizing st1 st2 with
  | nil => exact h
  | cons l ls ih =>
    rw [run_lines_cons, run_lines_cons]
    apply ih
    rw [loop_body_env, loop_body_env, h]

/-- The buffers of a file in which the text line `line` follows `pre`. -/
theorem lines_of_middle (pre line post : List Char)
    (hpre : pre = [] ∨ pre.getLast? = some '\n') (hnl : '\n' ∉ line)
    (hfit : line.length + 1 ≤ LINE_SIZE - 1) :
    lines_of (pre ++ line ++ '\n' :: post)
      = lines_of pre ++ (line ++ ['\n']) :: lines_of post := by
  rw [List.append_assoc, lines_of_append _ _ hpre, lines_of_line _ _ hnl hfit]

/-- A buffer that holds only whitespace, or whose first non-whitespace
character is `#`, leaves the loop state as it is: the environment is not
changed and nothing is printed, whatever the comment contains (also an `=`).
Hence `dotenv_load` gives the same result, environment and diagnostics, on a
file and on the file without such a buffer; in particular a blank or comment
text line that fits the line buffer can be deleted. -/
theorem loop_body_blank_or_comment (line : List Char)
    (h : (∀ c ∈ line, isspace c = true) ∨ (line.dropWhile isspace).head? = some '#') :
    (∀ (override : Bool) (st : load_state), loop_body override line st = st) ∧
      (∀ (content : List Char) (ls1 ls2 : List (List Char)) (override : Bool) (env : Env),
        lines_of content = ls1 ++ line :: ls2 →
        dotenv_load (some (ls1 ++ ls2).flatten) override env
          = dotenv_load (some content) override env) ∧
      (∀ (pre post : List Char) (override : Bool) (env : Env),
        (pre = [] ∨ pre.getLast? = some '\n') → '\n' ∉ line →
        line.length + 1 ≤ LINE_SIZE - 1 →
        dotenv_load (some (pre ++ line ++ '\n' :: post)) override env
          = dotenv_load (some (pre ++ post)) override env) := by
  have hskip := trim_cstr_head_of_blank_or_comment line h
  refine ⟨fun override st => loop_body_skip override line st hskip, ?_, ?_⟩
  · intro content ls1 ls2 override env hls
    have hok : buffers_ok (ls1 ++ ls2) := by
      apply buffers_ok_erase ls1 line ls2
      rw [← hls]
      exact buffers_ok_lines_of content
    rw [dotenv_load_some, dotenv_load_some, lines_of_flatten_of_buffers_ok _ hok, hls,
      run_lines_append, run_lines_append, run_lines_cons, loop_body_skip _ _ _ hskip]
  intro pre post override env hpre hnl hfit
  have h2 : (∀ c ∈ line ++ ['\n'], isspace c = true)
      ∨ ((line ++ ['\n']).dropWhile isspace).head? = some '#' := by
    rcases h with h | h
    · left
      intro c hc
      rcases List.mem_append.1 hc with hc | hc
      · exact h c hc
      · simp only [List.mem_singleton] at hc
        subst hc; decide
    · right
      rw [List.dropWhile_append]
      split_ifs with he
      · simp only [List.isEmpty_eq_true] at he
        simp [he] at h
      · cases hd : line.dropWhile isspace with
        | nil => simp [hd] at he
        | cons d ds => rw [hd] at h; simpa using h
  rw [dotenv_load_some, dotenv_load_some, lines_of_middle _ _ _ hpre hnl hfit,
    lines_of_append _ _ hpre, run_lines_append, run_lines_cons, run_lines_append,
    loop_body_skip _ _ _ (trim_cstr_head_of_blank_or_comment _ h2)]

theorem run_lines_all_skip (override : Bool) (lines : List (List Char)) (st : load_state)
    (h : ∀ l ∈ lines, ∀ c ∈ l, isspace c = true) : run_lines override lines st = st := by
  induction lines generalizing st with
  | nil => rfl
  | cons l ls ih =>
    rw [run_lines_cons, loop_body_skip _ _ _
      (trim_cstr_head_of_blank_or_comment l (Or.inl (h l (by simp))))]
    exact ih st (fun l2 hl2 => h l2 (by simp [hl2]))

theorem run_lines_blank (override : Bool) (s : List Char) (st : load_state)
    (h : ∀ c ∈ s, isspace c = true) : run_lines override (lines_of s) st = st := by
  apply run_lines_all_skip
  intro l hl c hc
  apply h
  rw [← lines_of_flatten s]
  exact List.mem_flatten.2 ⟨l, hl, hc⟩

theorem name_char_ne_newline {c : Char} (h : name_char c = true) : c ≠ '\n' := by
  rintro rfl
  simp [name_char, isalnum, isalpha] at h

/-- One iteration on a buffer `n=` followed by whitespace. -/
theorem loop_body_empty_value (n w : List Char) (st : load_state)
    (hn : (is_valid_variable_name n).1 = true) (hw : ∀ c ∈ w, isspace c = true) :
    loop_body true (n ++ '=' :: w) st = { st with env := setenv n [] st.env } := by
  have hnul : ∀ c ∈ n ++ '=' :: w, (c != '\x00') = true := by
    intro c hc
    rcases List.mem_append.1 hc with hc | hc
    · simpa using name_char_ne_nul (valid_name_chars hn c hc)
    · rcases List.mem_cons.1 hc with rfl | hc
      · decide
      · exact space_ne_nul (hw c hc)
  obtain ⟨c, cs, rfl⟩ := List.exists_cons_of_ne_nil (valid_name_ne_nil hn)
  have hc : name_char c = true := valid_name_chars hn c (by simp)
  have hclean : edge_clean (c :: cs ++ ['=']) :=
    ⟨fun d hd => by
        simp only [List.cons_append, List.head?_cons, Option.some.injEq] at hd
        subst hd; exact name_char_not_space hc,
      fun d hd => by
        rw [List.getLast?_append_of_ne_nil _ (by simp)] at hd
        simp only [List.getLast?_singleton, Option.some.injEq] at hd
        subst hd; decide⟩
  have htrim : trim_whitespace (c :: cs ++ '=' :: w) = c :: cs ++ ['='] := by
    have := trim_whitespace_sandwich [] (c :: cs ++ ['=']) w (by simp) hw hclean
    simpa using this
  have hpl : parse_line (c :: cs ++ ['=']) = .ok { name := c :: cs, value := [] } := by
    rw [parse_line_split _ _ (valid_name_no_eq hn),
      trim_whitespace_of_edge_clean (valid_name_edge_clean hn), if_pos hn]
    rfl
  unfold loop_body
  simp only [cstr_of_no_nul _ hnul, htrim, hpl]
  rw [if_neg, if_pos (Or.inl trivial)]
  simp only [List.cons_append, List.head?_cons, reduceCtorEq, Option.some.injEq, false_or]
  exact name_char_ne_hash hc

theorem run_lines_empty_value (n w : List Char) (st : load_state)
    (hn : (is_valid_variable_name n).1 = true) (hw : ∀ c ∈ w, isspace c = true) :
    run_lines true (lines_of (n ++ '=' :: w)) st = { st with env := setenv n [] st.env } := by
  have hnl : '\n' ∉ n ++ ['='] := by
    intro hm
    rcases List.mem_append.1 hm with hm | hm
    · exact name_char_ne_newline (valid_name_chars hn _ hm) rfl
    · simp at hm
  have hlen : (n ++ ['=']).length ≤ LINE_SIZE - 1 := by
    have := valid_name_length hn
    simp only [List.length_append, List.length_singleton, LINE_SIZE]; omega
  have e : n ++ '=' :: w = (n ++ ['=']) ++ w := by simp
  have happ := fgets_read_append (LINE_SIZE - 1 - (n ++ ['=']).length) w
  have h1 : ∀ c ∈ (fgets_read (LINE_SIZE - 1 - (n ++ ['=']).length) w).1, isspace c = true :=
    fun c hc => hw c (by rw [← happ]; exact List.mem_append_left _ hc)
  have h2 : ∀ c ∈ (fgets_read (LINE_SIZE - 1 - (n ++ ['=']).length) w).2, isspace c = true :=
    fun c hc => hw c (by rw [← happ]; exact List.mem_append_right _ hc)
  rw [lines_of_ne_nil _ (by simp), e, fgets_read_of_no_newline _ _ _ hnl hlen, run_lines_cons,
    run_lines_blank _ _ _ h2]
  have := loop_body_empty_value n _ st hn h1
  simpa using this

/-- C8: a file line `n=` followed by any run of whitespace, loaded with
`override = true`, sets `n` to the empty string (set, not unset), and the
lines after it are loaded as they would be from that environment; `pre` is
the part of the file before the line. -/
theorem empty_value_line_sets_empty (pre n w rest : List Char) (env : Env)
    (hpre : pre = [] ∨ pre.getLast? = some '\n')
    (hn : (is_valid_variable_name n).1 = true) (hw : ∀ c ∈ w, isspace c = true) :
    (dotenv_load (some (pre ++ n ++ '=' :: (w ++ '\n' :: rest))) true env).env
        = (dotenv_load (some rest) true
            (setenv n [] (dotenv_load (some pre) true env).env)).env ∧
      (dotenv_load (some (pre ++ n ++ '=' :: w)) true env).env n = some [] ∧
      getenv (setenv n [] (dotenv_load (some pre) true env).env) n = some [] := by
  have hset : ∀ env2 : Env, getenv (setenv n [] env2) n = some [] := by
    intro env2
    rw [getenv, setenv_valid hn]
    simp
  refine ⟨?_, ?_, hset _⟩
  · have e : pre ++ n ++ '=' :: (w ++ '\n' :: rest)
        = pre ++ ((n ++ '=' :: (w ++ ['\n'])) ++ rest) := by simp
    have hw2 : ∀ c ∈ w ++ ['\n'], isspace c = true := by
      intro c hc
      rcases List.mem_append.1 hc with hc | hc
      · exact hw c hc
      · simp only [List.mem_singleton] at hc
        subst hc; decide
    have hlast : (n ++ '=' :: (w ++ ['\n'])).getLast? = some '\n' := by
      have e2 : n ++ '=' :: (w ++ ['\n']) = (n ++ '=' :: w) ++ ['\n'] := by simp
      rw [e2, List.getLast?_append_of_ne_nil _ (by simp)]
      rfl
    rw [dotenv_load_some, dotenv_load_some, dotenv_load_some, e, lines_of_append _ _ hpre,
      lines_of_append _ _ (Or.inr hlast), run_lines_append, run_lines_append,
      run_lines_empty_value n _ _ hn hw2]
    exact run_lines_env_congr _ _ _ _ rfl
  · have e : pre ++ n ++ '=' :: w = pre ++ (n ++ '=' :: w) := by simp
    rw [dotenv_load_some, e, lines_of_append _ _ hpre, run_lines_append,
      run_lines_empty_value n _ _ hn hw]
    exact hset _

/-- C8, at the file of the test suite: `EMPTY_VAR=` then `ANOTHER_VAR=value`. -/
theorem empty_value_line_sets_empty_witness :
    (dotenv_load (some ("".toList ++ "EMPTY_VAR".toList
        ++ '=' :: (" \t".toList ++ '\n' :: "ANOTHER_VAR=value\n".toList))) true empty_env).env
        = (dotenv_load (some "ANOTHER_VAR=value\n".toList) true
            (setenv "EMPTY_VAR".toList []
              (dotenv_load (some "".toList) true empty_env).env)).env ∧
      (dotenv_load (some ("".toList ++ "EMPTY_VAR".toList ++ '=' :: " \t".toList))
        true empty_env).env "EMPTY_VAR".toList = some [] ∧
      getenv (setenv "EMPTY_VAR".toList [] (dotenv_load (some "".toList) true empty_env).env)
        "EMPTY_VAR".toList = some [] :=
  empty_value_line_sets_empty "".toList "EMPTY_VAR".toList " \t".toList
    "ANOTHER_VAR=value\n".toList empty_env (by decide) (by decide) (by decide)

/-! ## The return value of `dotenv_load` -/

/-- C11: `dotenv_load` returns -1 exactly when the file cannot be opened, and
then the environment is unchanged; whenever the file can be opened it returns
0, whatever the file contains, also when every line is rejected (here the
file `1INVALID=value`, `INVALID_LINE`). -/
theorem dotenv_load_ret (file : Option (List Char)) (override : Bool) (env : Env) :
    ((dotenv_load file override env).ret = -1 ↔ file = none) ∧
      (dotenv_load none override env).env = env ∧
      (∀ content : List Char, (dotenv_load (some content) override env).ret = 0) ∧
      ((dotenv_load file override env).ret = 0 ∨ (dotenv_load file override env).ret = -1) ∧
      (dotenv_load (some "1INVALID=value\nINVALID_LINE\n".toList) override env).ret = 0 ∧
      accepted_entries "1INVALID=value\nINVALID_LINE\n".toList = [] := by
  refine ⟨?_, rfl, fun content => rfl, ?_, rfl, by decide⟩
  · cases file with
    | none => simp [dotenv_load]
    | some content => simp [dotenv_load]
  · cases file with
    | none => exact Or.inr rfl
    | some content => exact Or.inl rfl

/-! ## The reference definition of trimming -/

theorem trim_whitespace_eq_nil_iff (s : List Char) :
    trim_whitespace s = [] ↔ ∀ c ∈ s, isspace c = true := by
  rw [trim_whitespace_eq, List.rdropWhile_eq_nil_iff]
  constructor
  · intro h c hc
    have hs := List.takeWhile_append_dropWhile isspace s
    rw [← hs] at hc
    rcases List.mem_append.1 hc with hc | hc
    · exact List.mem_takeWhile_imp hc
    · exact h c hc
  · intro h c hc
    exact h c ((List.dropWhile_suffix isspace).subset hc)

/-- C14: `trim_whitespace` meets its reference definition: every string is
`l ++ trim_whitespace s ++ r` with `l` and `r` made of whitespace only (so the
interior is kept as it is), the trimmed text is empty exactly when the string
is empty or all whitespace, and otherwise it begins and ends with a character
that is not whitespace. -/
theorem trim_whitespace_reference (s : List Char) :
    (∃ l r : List Char, s = l ++ trim_whitespace s ++ r ∧
      (∀ c ∈ l, isspace c = true) ∧ (∀ c ∈ r, isspace c = true)) ∧
    (trim_whitespace s = [] ↔ ∀ c ∈ s, isspace c = true) ∧
    (∀ hne : trim_whitespace s ≠ [],
      isspace ((trim_whitespace s).head hne) = false ∧
      isspace ((trim_whitespace s).getLast hne) = false) := by
  refine ⟨⟨s.takeWhile isspace, (s.dropWhile isspace).rtakeWhile isspace, ?_,
    fun c hc => List.mem_takeWhile_imp hc, fun c hc => List.mem_rtakeWhile_imp hc⟩,
    trim_whitespace_eq_nil_iff s, ?_⟩
  · rw [trim_whitespace_eq, List.append_assoc, rdropWhile_append_rtakeWhile,
      List.takeWhile_append_dropWhile]
  · intro hne
    have hc := trim_whitespace_edge_clean s
    exact ⟨hc.1 _ (List.head?_eq_head hne), hc.2 _ (List.getLast?_eq_getLast _ hne)⟩

/-- C14, at ` \t a b \r\n`: the trimmed text `a b` begins and ends with a
character that is not whitespace. -/
theorem trim_whitespace_reference_witness :
    trim_whitespace " \t a b \r\n".toList = "a b".toList ∧
      isspace ((trim_whitespace " \t a b \r\n".toList).head (by decide)) = false ∧
      isspace ((trim_whitespace " \t a b \r\n".toList).getLast (by decide)) = false :=
  ⟨by decide, (trim_whitespace_reference " \t a b \r\n".toList).2.2 (by decide)⟩

/-- C15: trimming is idempotent. -/
theorem trim_whitespace_idempotent (s : List Char) :
    trim_whitespace (trim_whitespace s) = trim_whitespace s :=
  trim_whitespace_of_edge_clean (trim_whitespace_edge_clean s)

/-! ## The text of a rejection -/

theorem mem_trim_whitespace {s : List Char} {c : Char} (h : c ∈ trim_whitespace s) : c ∈ s := by
  rw [trim_whitespace_eq] at h
  exact (List.dropWhile_suffix isspace).subset (( List.rdropWhile_prefix isspace _).subset h)

theorem mem_trim_whitespace_buffer {s : List Char} {c : Char}
    (h : c ∈ trim_whitespace_buffer s) : c ∈ s := by
  rcases List.mem_append.1 h with h | h
  · exact (List.takeWhile_sublist _).subset h
  · exact mem_trim_whitespace h

/-- C16 fails on the code: for the file `1INVALID=value` the diagnostic is
`Skipping invalid line: 1INVALID`, not the line `1INVALID=value` that was
handed to `parse_line`, because `parse_line` has put a NUL in place of the `=`
of the very buffer the message prints.  A rejected line that has an `=` is
never reported with it; a line without `=` is reported in full. -/
theorem skipping_reports_text_before_equals :
    (dotenv_load (some "1INVALID=value\n".toList) true empty_env).err
        = [Diag.skipping "1INVALID".toList] ∧
      (dotenv_load (some "BAD NAME = value # note\n".toList) true empty_env).err
        = [Diag.skipping "BAD NAME".toList] ∧
      (dotenv_load (some "INVALID_LINE\n".toList) true empty_env).err
        = [Diag.skipping "INVALID_LINE".toList] ∧
      (∀ (line : List Char) (f : parse_failure),
        parse_line line = .error f → '=' ∈ line → '=' ∉ f.line ∧ f.line ≠ line) ∧
      (∀ (line : List Char) (f : parse_failure),
        parse_line line = .error f → '=' ∉ line → f.line = line) := by
  refine ⟨by decide, by decide, by decide, ?_, ?_⟩
  · intro line f hf hm
    have hno : '=' ∉ f.line := by
      obtain ⟨r, hr, hn⟩ := mem_split_first _ _ hm
      rw [hr, parse_line_split _ _ hn] at hf
      split_ifs at hf with hv
      simp only [Except.error.injEq] at hf
      subst hf
      exact fun h => hn (mem_trim_whitespace_buffer h)
    exact ⟨hno, fun e => hno (e ▸ hm)⟩
  · intro line f hf hm
    simp only [parse_line, hm, if_false, Except.error.injEq] at hf
    subst hf
    rfl

/-! ## Lines longer than the line buffer -/

theorem mem_cstr {s : List Char} {c : Char} (h : c ∈ cstr s) : c ∈ s :=
  (List.takeWhile_sublist _).subset h

theorem mem_of_mem_lines_of {content l : List Char} {c : Char} (hl : l ∈ lines_of content)
    (hc : c ∈ l) : c ∈ content := by
  rw [← lines_of_flatten content]
  exact List.mem_flatten.2 ⟨l, hl, hc⟩

theorem line_entry_of_no_equals (l : List Char) (h : '=' ∉ l) : line_entry l = none := by
  unfold line_entry
  simp only
  split_ifs
  · rfl
  · have : '=' ∉ trim_whitespace (cstr l) := fun hm => h (mem_cstr (mem_trim_whitespace hm))
    simp [parse_line, this, Except.toOption]

theorem run_lines_env_of_no_entry (override : Bool) (lines : List (List Char))
    (st : load_state) (h : ∀ l ∈ lines, line_entry l = none) :
    (run_lines override lines st).env = st.env := by
  induction lines generalizing st with
  | nil => rfl
  | cons l ls ih =>
    rw [run_lines_cons, ih _ (fun l2 hl2 => h l2 (by simp [hl2])), loop_body_env,
      h l (by simp)]

/-- The buffer `n=v` of a plain assignment yields the entry `(n, v)`. -/
theorem line_entry_assignment (n v : List Char) (hn : (is_valid_variable_name n).1 = true)
    (hnul : ∀ c ∈ v, (c != '\x00') = true) (hv1 : '#' ∉ v) (hv2 : v.head? ≠ some '"')
    (hv3 : edge_clean v) (hfit : v.length ≤ LINE_SIZE - 1) :
    line_entry (n ++ '=' :: v) = some { name := n, value := v } := by
  have hnul2 : ∀ c ∈ n ++ '=' :: v, (c != '\x00') = true := by
    intro c hc
    rcases List.mem_append.1 hc with hc | hc
    · simpa using name_char_ne_nul (valid_name_chars hn c hc)
    · rcases List.mem_cons.1 hc with rfl | hc
      · decide
      · exact hnul c hc
  obtain ⟨c, cs, rfl⟩ := List.exists_cons_of_ne_nil (valid_name_ne_nil hn)
  have hc : name_char c = true := valid_name_chars hn c (by simp)
  have hclean : edge_clean (c :: cs ++ '=' :: v) := by
    constructor
    · intro d hd
      simp only [List.cons_append, List.head?_cons, Option.some.injEq] at hd
      subst hd; exact name_char_not_space hc
    · intro d hd
      have e : c :: cs ++ '=' :: v = (c :: cs ++ ['=']) ++ v := by simp
      by_cases hv : v = []
      · subst hv
        rw [List.getLast?_append_of_ne_nil _ (by simp)] at hd
        simp only [List.getLast?_singleton, Option.some.injEq] at hd
        subst hd; decide
      · rw [e, List.getLast?_append_of_ne_nil _ hv] at hd
        exact hv3.2 d hd
  have hpv : parse_value v = v := by
    have := (parse_value_plain v [] [] [] (by simp) (by simp) hv1 hv2 hv3 hfit).2
    simpa using this
  unfold line_entry
  simp only [cstr_of_no_nul _ hnul2, trim_whitespace_of_edge_clean hclean]
  rw [if_neg, parse_line_split _ _ (valid_name_no_eq hn),
    trim_whitespace_of_edge_clean (valid_name_edge_clean hn), if_pos hn, hpv]
  · rfl
  · simp only [List.cons_append, List.head?_cons, reduceCtorEq, Option.some.injEq, false_or]
    exact name_char_ne_hash hc

/-- A full buffer without newline is delivered as it is. -/
theorem lines_of_full_buffer (a b : List Char) (hnl : '\n' ∉ a)
    (hlen : a.length = LINE_SIZE - 1) : lines_of (a ++ b) = a :: lines_of b := by
  have hne : a ≠ [] := by
    intro e; rw [e] at hlen; simp [LINE_SIZE] at hlen
  have hb : is_buffer a :=
    ⟨hne, le_of_eq hlen, fun hm => hnl (List.dropLast_subset a hm)⟩
  rw [lines_of_ne_nil _ (by simp [hne]), fgets_read_buffer a b hb (Or.inr (Or.inr hlen))]

theorem replicate_x_facts (k : Nat) :
    (∀ c ∈ List.replicate k 'x', (c != '\x00') = true) ∧ '#' ∉ List.replicate k 'x' ∧
      (List.replicate k 'x').head? ≠ some '"' ∧ edge_clean (List.replicate k 'x') ∧
      '\n' ∉ List.replicate k 'x' ∧ '=' ∉ List.replicate k 'x' := by
  refine ⟨?_, ?_, ?_, ?_, ?_, ?_⟩
  · intro c hc
    rw [List.eq_of_mem_replicate hc]; decide
  · intro h
    exact absurd (List.eq_of_mem_replicate h) (by decide)
  · intro h
    exact absurd (List.eq_of_mem_replicate (List.mem_of_mem_head? h)) (by decide)
  · exact edge_clean_of_no_space (fun c hc => by rw [List.eq_of_mem_replicate hc]; decide)
  · intro h
    exact absurd (List.eq_of_mem_replicate h) (by decide)
  · intro h
    exact absurd (List.eq_of_mem_replicate h) (by decide)

/-- C13 fails on the code: a file that is one line of exactly `LINE_SIZE`
characters, `A=` followed by 1022 `x`, sets `A` (to the 1021 `x` that fit the
first buffer), and the line of 1023 `x` followed by `B=1` sets `B`: `fgets`
hands an over-long line to the parser in pieces of `LINE_SIZE - 1`
characters.  The line of 2047 `A` of the test sets nothing because it has no
`=`: a file without `=` never changes the environment. -/
theorem long_line_sets_variable :
    ("A=".toList ++ List.replicate 1022 'x').length = LINE_SIZE ∧
      '\n' ∉ "A=".toList ++ List.replicate 1022 'x' ∧
      (dotenv_load (some ("A=".toList ++ List.replicate 1022 'x')) true empty_env).env
          "A".toList = some (List.replicate 1021 'x') ∧
      (dotenv_load (some (List.replicate 1023 'x' ++ "B=1".toList)) true empty_env).env
          "B".toList = some "1".toList ∧
      (dotenv_load (some (List.replicate 2047 'A')) true empty_env).env "A".toList = none ∧
      (∀ (content : List Char) (override : Bool) (env : Env), '=' ∉ content →
        (dotenv_load (some content) override env).env = env) := by
  have hgen : ∀ (content : List Char) (override : Bool) (env : Env), '=' ∉ content →
      (dotenv_load (some content) override env).env = env := by
    intro content override env h
    rw [dotenv_load_some]
    exact run_lines_env_of_no_entry _ _ _
      (fun l hl => line_entry_of_no_equals l (fun hm => h (mem_of_mem_lines_of hl hm)))
  obtain ⟨hx1, hx2, hx3, hx4, hx5, hx6⟩ := replicate_x_facts 1021
  have hA : (is_valid_variable_name "A".toList).1 = true := by decide
  refine ⟨by rw [List.length_append, List.length_replicate]; rfl, ?_, ?_, ?_, ?_, hgen⟩
  · intro h
    rcases List.mem_append.1 h with h | h
    · revert h; decide
    · exact (replicate_x_facts 1022).2.2.2.2.1 h
  · have e : "A=".toList ++ List.replicate 1022 'x'
        = ("A".toList ++ '=' :: List.replicate 1021 'x') ++ ['x'] := by
      rw [show (1022 : Nat) = 1021 + 1 from rfl, List.replicate_succ', ← List.append_assoc]
      rfl
    have hnl : '\n' ∉ "A".toList ++ '=' :: List.replicate 1021 'x' := by
      intro h
      rcases List.mem_append.1 h with h | h
      · revert h; decide
      · rcases List.mem_cons.1 h with h | h
        · revert h; decide
        · exact hx5 h
    have hlen : ("A".toList ++ '=' :: List.replicate 1021 'x').length = LINE_SIZE - 1 := by
      rw [List.length_append, List.length_cons, List.length_replicate]; rfl
    have hfit : (List.replicate 1021 'x').length ≤ LINE_SIZE - 1 := by
      rw [List.length_replicate]; decide
    rw [dotenv_load_some, e, lines_of_full_buffer _ _ hnl hlen,
      lines_of_last ['x'] (by decide) (by decide) (by decide), run_lines_cons, run_lines_cons,
      run_lines_nil, loop_body_env, loop_body_env,
      line_entry_assignment _ _ hA hx1 hx2 hx3 hx4 hfit]
    have h2 : line_entry ['x'] = none := by decide
    simp only [h2, true_or, if_true]
    rw [setenv_valid hA]
    exact if_pos rfl
  · have hnl : '\n' ∉ List.replicate 1023 'x' := (replicate_x_facts 1023).2.2.2.2.1
    have hne : '=' ∉ List.replicate 1023 'x' := (replicate_x_facts 1023).2.2.2.2.2
    have hB : (is_valid_variable_name "B".toList).1 = true := by decide
    have hlen : (List.replicate 1023 'x').length = LINE_SIZE - 1 := by
      rw [List.length_replicate]; rfl
    rw [dotenv_load_some, lines_of_full_buffer _ _ hnl hlen,
      lines_of_last "B=1".toList (by decide) (by decide) (by decide), run_lines_cons,
      run_lines_cons, run_lines_nil, loop_body_env, loop_body_env,
      line_entry_of_no_equals _ hne]
    have h2 : line_entry "B=1".toList = some { name := "B".toList, value := "1".toList } := by
      decide
    simp only [h2, true_or, if_true]
    rw [setenv_valid hB]
    exact if_pos rfl
  · rw [hgen _ _ _ (fun h => absurd (List.eq_of_mem_replicate h) (by decide))]
    rfl

/-! ## Unterminated quoted values -/

theorem decode_quoted_open_body (escaped : Bool) (e t : List Char)
    (h : open_body escaped e = true) :
    decode_quoted escaped (e ++ '"' :: t) = decode_quoted escaped e := by
  induction e generalizing escaped with
  | nil =>
    cases escaped with
    | true => simp [open_body] at h
    | false => simp [decode_quoted]
  | cons c cs ih =>
    cases escaped with
    | true =>
      simp only [open_body, if_true] at h
      simp [decode_quoted, ih false h]
    | false =>
      simp only [open_body, Bool.false_eq_true, if_false] at h
      by_cases h1 : c = '\\'
      · simp only [h1, if_true] at h
        simp [decode_quoted, h1, ih true h]
      · by_cases h2 : c = '"'
        · simp [h1, h2] at h
        · simp only [h1, h2, if_false] at h
          simp [decode_quoted, h1, h2, ih false h]

theorem trim_whitespace_quote_open (e : List Char) :
    trim_whitespace ('"' :: e) = '"' :: e.rdropWhile isspace := by
  rw [trim_whitespace_eq, List.dropWhile_cons_of_neg (by decide)]
  exact rdropWhile_append_cons_of_neg [] '"' e (by decide)

/-- The value of a text that opens a quote: what the decoder reads in the
body once the whitespace at its end is cut. -/
theorem parse_value_quote_open (e : List Char) :
    parse_value ('"' :: e) = decode_quoted false (e.rdropWhile isspace) := by
  unfold parse_value
  rw [trim_whitespace_quote_open]
  simp

/-- C17 fails on the code: for the body `a `, which has no double quote and
no backslash, the unterminated text `"a ` decodes to `a` (the space at the
end is trimmed before the quote is looked at) while `"a "` decodes to `a `. -/
theorem unterminated_quote_counterexample :
    open_body false "a ".toList = true ∧
      parse_value ('"' :: "a ".toList) = "a".toList ∧
      parse_value ('"' :: ("a ".toList ++ ['"'])) = "a ".toList ∧
      parse_value ('"' :: "a ".toList) ≠ parse_value ('"' :: ("a ".toList ++ ['"'])) := by
  decide

/-- C17 as amended: for every body `e` that has no unescaped double quote,
does not end in an unpaired backslash and does not end in whitespace, the
unterminated text `"e` has the same value as `"e"`, namely what the decoder
reads in `e`; and a line `n="e` with a valid name is accepted, never rejected
for the missing quote, with what was decoded as its value. -/
theorem unterminated_quote_accepted (e : List Char) (hopen : open_body false e = true)
    (hend : ∀ c, e.getLast? = some c → isspace c = false) :
    parse_value ('"' :: e) = parse_value ('"' :: (e ++ ['"'])) ∧
      parse_value ('"' :: e) = decode_quoted false e ∧
      (∀ n : List Char, (is_valid_variable_name n).1 = true →
        parse_line (n ++ '=' :: '"' :: e) = .ok { name := n, value := decode_quoted false e }) := by
  have hr : e.rdropWhile isspace = e :=
    List.rdropWhile_eq_self_iff.2 (fun hne => by
      have := hend _ (List.getLast?_eq_getLast _ hne)
      simp [this])
  have h1 : parse_value ('"' :: e) = decode_quoted false e := by
    rw [parse_value_quote_open, hr]
  have h2 : parse_value ('"' :: (e ++ ['"'])) = decode_quoted false e := by
    have ht := trim_whitespace_quote_cons e []
    unfold parse_value
    rw [ht]
    simpa using decode_quoted_open_body false e [] hopen
  refine ⟨by rw [h1, h2], h1, ?_⟩
  intro n hn
  rw [parse_line_split _ _ (valid_name_no_eq hn),
    trim_whitespace_of_edge_clean (valid_name_edge_clean hn), if_pos hn, h1]

/-- C17 as amended, at the body `a\"b c` and the line `KEY="a\"b c`. -/
theorem unterminated_quote_accepted_witness :
    parse_value ('"' :: "a\\\"b c".toList) = parse_value ('"' :: ("a\\\"b c".toList ++ ['"'])) ∧
      parse_value ('"' :: "a\\\"b c".toList) = "a\"b c".toList ∧
      parse_line ("KEY".toList ++ '=' :: '"' :: "a\\\"b c".toList)
        = .ok { name := "KEY".toList, value := decode_quoted false "a\\\"b c".toList } :=
  ⟨(unterminated_quote_accepted "a\\\"b c".toList (by decide) (by decide)).1,
    by decide,
    (unterminated_quote_accepted "a\\\"b c".toList (by decide) (by decide)).2.2
      "KEY".toList (by decide)⟩

/-! ## The size of stored values -/

theorem decode_quoted_length_le (escaped : Bool) (s : List Char) :
    (decode_quoted escaped s).length ≤ s.length := by
  induction s generalizing escaped with
  | nil => simp [decode_quoted]
  | cons c cs ih =>
    simp only [decode_quoted]
    split_ifs
    · exact le_trans (ih true) (by simp)
    · simp
    · simpa using ih false
    · simpa using ih escaped

theorem parse_value_length_le (text : List Char) :
    (parse_value text).length ≤ text.length := by
  unfold parse_value
  simp only
  split_ifs
  · exact le_trans (decode_quoted_length_le _ _)
      (le_trans (by simp) (length_trim_whitespace_le text))
  · exact le_trans (List.take_sublist _ _).length_le
      (le_trans (length_trim_whitespace_le _)
        (le_trans ( List.takeWhile_prefix _).length_le (length_trim_whitespace_le text)))

theorem parse_line_ok_value_length {line : List Char} {e : dotenv_entry}
    (h : parse_line line = .ok e) : e.value.length ≤ line.length := by
  by_cases hm : '=' ∈ line
  · obtain ⟨r, hr, hn⟩ := mem_split_first _ _ hm
    have hlen : r.length ≤ line.length := by
      have := congrArg List.length hr
      rw [List.length_append, List.length_cons] at this
      omega
    rw [hr, parse_line_split _ _ hn] at h
    split_ifs at h with hv
    simp only [Except.ok.injEq] at h
    subst h
    exact le_trans (parse_value_length_le r) hlen
  · simp [parse_line, hm] at h

theorem line_entry_value_length {l : List Char} {e : dotenv_entry}
    (h : line_entry l = some e) : e.value.length ≤ l.length := by
  unfold line_entry at h
  simp only at h
  split_ifs at h
  cases hp : parse_line (trim_whitespace (cstr l)) with
  | error f => simp [hp, Except.toOption] at h
  | ok e2 =>
    simp only [hp, Except.toOption, Option.some.injEq] at h
    subst h
    exact le_trans (parse_line_ok_value_length hp)
      (le_trans (length_trim_whitespace_le _) ( List.takeWhile_prefix _).length_le)

theorem is_buffer_of_mem {ls : List (List Char)} (h : buffers_ok ls) :
    ∀ l ∈ ls, is_buffer l := by
  induction ls with
  | nil => simp
  | cons a as ih =>
    intro l hl
    rcases List.mem_cons.1 hl with rfl | hl
    · exact h.1
    · exact ih h.2.2 l hl

theorem length_le_of_mem_lines_of {content l : List Char} (h : l ∈ lines_of content) :
    l.length ≤ LINE_SIZE - 1 :=
  (is_buffer_of_mem (buffers_ok_lines_of content) l h).2.1

theorem run_lines_values_bounded (override : Bool) (lines : List (List Char))
    (st : load_state) (env : Env) (hl : ∀ l ∈ lines, l.length ≤ LINE_SIZE - 1)
    (hst : ∀ n v, st.env n = some v → env n = some v ∨ v.length ≤ LINE_SIZE - 1) :
    ∀ n v, (run_lines override lines st).env n = some v →
      env n = some v ∨ v.length ≤ LINE_SIZE - 1 := by
  induction lines generalizing st with
  | nil => exact hst
  | cons l ls ih =>
    rw [run_lines_cons]
    apply ih _ (fun l2 hl2 => hl l2 (by simp [hl2]))
    intro n v hv
    rw [loop_body_env] at hv
    cases he : line_entry l with
    | none =>
      rw [he] at hv
      exact hst n v hv
    | some e =>
      simp only [he] at hv
      have hbound : e.value.length ≤ LINE_SIZE - 1 :=
        le_trans (line_entry_value_length he) (hl l (by simp))
      split_ifs at hv
      · rw [setenv_valid (line_entry_name he)] at hv
        simp only at hv
        split_ifs at hv
        · simp only [Option.some.injEq] at hv
          subst hv
          exact Or.inr hbound
        · exact hst n v hv
      · exact hst n v hv

/-- C18: every value `dotenv_load` stores has at most `LINE_SIZE - 1`
characters, in quoted and in unquoted mode alike: the value of every accepted
entry of the file is that short, and a variable of the final environment
either has the value it had before or one that short.  This rests on the
value never being longer than the text it is decoded from and on every buffer
`fgets` delivers having at most `LINE_SIZE - 1` characters. -/
theorem stored_values_bounded (content : List Char) (override : Bool) (env : Env) :
    (∀ e ∈ accepted_entries content, e.value.length ≤ LINE_SIZE - 1) ∧
      (∀ n v, (dotenv_load (some content) override env).env n = some v →
        env n = some v ∨ v.length ≤ LINE_SIZE - 1) ∧
      (∀ text : List Char, (parse_value text).length ≤ text.length) ∧
      (∀ escaped body, (decode_quoted escaped body).length ≤ body.length) ∧
      (∀ l ∈ lines_of content, l.length ≤ LINE_SIZE - 1) := by
  refine ⟨?_, ?_, parse_value_length_le, decode_quoted_length_le,
    fun l hl => length_le_of_mem_lines_of hl⟩
  · intro e he
    obtain ⟨l, hl, hle⟩ := List.mem_filterMap.1 he
    exact le_trans (line_entry_value_length hle) (length_le_of_mem_lines_of hl)
  · rw [dotenv_load_some]
    exact run_lines_values_bounded override _ _ env
      (fun l hl => length_le_of_mem_lines_of hl) (fun n v h => Or.inl h)

/-! ## Duplicates without override, and the frame of the loader -/

theorem run_lines_no_override_env (lines : List (List Char)) (st : load_state) :
    (run_lines false lines st).env
      = (lines.filterMap line_entry).foldl
          (fun env e => if env e.name = none then setenv e.name e.value env else env) st.env := by
  induction lines generalizing st with
  | nil => rfl
  | cons l ls ih =>
    rw [run_lines_cons, ih, loop_body_env]
    cases hl : line_entry l with
    | none => simp [List.filterMap_cons, hl]
    | some e => simp [List.filterMap_cons, hl]

theorem foldl_no_override_keeps (es : List dotenv_entry) (env : Env) (n v : List Char)
    (h : env n = some v) :
    es.foldl (fun env e => if env e.name = none then setenv e.name e.value env else env) env n
      = some v := by
  induction es generalizing env with
  | nil => exact h
  | cons x xs ih =>
    rw [List.foldl_cons]
    apply ih
    split_ifs with hu
    · rw [setenv_other _ _ _ _ (fun e2 => by rw [e2, hu] at h; cases h)]
      exact h
    · exact h

theorem foldl_no_override_first (es : List dotenv_entry) (env : Env) (n : List Char)
    (e : dotenv_entry)
    (hv : ∀ x ∈ es, (is_valid_variable_name x.name).1 = true)
    (hunset : env n = none)
    (h : es.find? (fun x => decide (x.name = n)) = some e) :
    es.foldl (fun env e => if env e.name = none then setenv e.name e.value env else env) env n
      = some e.value := by
  induction es generalizing env with
  | nil => simp at h
  | cons x xs ih =>
    rw [List.foldl_cons]
    rw [List.find?_cons] at h
    by_cases hx : x.name = n
    · simp only [hx, decide_True, Option.some.injEq] at h
      subst h
      apply foldl_no_override_keeps
      rw [hx, if_pos hunset, ← hx, setenv_valid (hv x (by simp))]
      exact if_pos rfl
    · simp only [hx, decide_False] at h
      apply ih _ (fun y hy => hv y (by simp [hy])) _ h
      split_ifs
      · rw [setenv_other _ _ _ _ (fun e2 => hx e2.symm)]
        exact hunset
      · exact hunset

/-- C19: with `override = false`, a name that is unset before the call and
that some accepted line of the file carries is bound, after `dotenv_load`, to
the value of the first accepted line with that name; the later ones are
ignored. -/
theorem dotenv_load_no_override_first_wins (content : List Char) (env : Env) (n : List Char)
    (e : dotenv_entry) (hunset : env n = none)
    (h : (accepted_entries content).find? (fun x => decide (x.name = n)) = some e) :
    (dotenv_load (some content) false env).env n = some e.value := by
  rw [dotenv_load_some]
  simp only
  rw [run_lines_no_override_env]
  exact foldl_no_override_first _ _ n e
    (fun x hx => by
      obtain ⟨l, _, hl⟩ := List.mem_filterMap.1 hx
      exact line_entry_name hl) hunset h

/-- C19, at the file `DUP=first`, `DUP=second`, `DUP=third` and the empty
environment. -/
theorem dotenv_load_no_override_first_wins_witness :
    empty_env "DUP".toList = none ∧
      (accepted_entries "DUP=first\nDUP=second\nDUP=third\n".toList).find?
        (fun x => decide (x.name = "DUP".toList))
        = some { name := "DUP".toList, value := "first".toList } ∧
      (dotenv_load (some "DUP=first\nDUP=second\nDUP=third\n".toList) false
        empty_env).env "DUP".toList = some "first".toList :=
  ⟨rfl, by decide,
    dotenv_load_no_override_first_wins _ _ _ { name := "DUP".toList, value := "first".toList }
      rfl (by decide)⟩

theorem trim_cstr_append_space (b w : List Char) (hw : ∀ c ∈ w, isspace c = true) :
    trim_whitespace (cstr (b ++ w)) = trim_whitespace (cstr b) := by
  by_cases h : ∀ c ∈ b, (c != '\x00') = true
  · rw [cstr_append_of_no_nul _ _ h, cstr_of_no_nul _ h,
      cstr_of_no_nul _ (fun c hc => space_ne_nul (hw c hc))]
    exact trim_whitespace_append_right _ _ hw
  · unfold cstr
    rw [List.takeWhile_append, if_neg]
    intro e
    exact h (List.takeWhile_eq_self_iff.1 (List.IsPrefix.eq_of_length
      ( List.takeWhile_prefix _) e))

theorem loop_body_congr (override : Bool) (l1 l2 : List Char) (st : load_state)
    (h : trim_whitespace (cstr l1) = trim_whitespace (cstr l2)) :
    loop_body override l1 st = loop_body override l2 st := by
  unfold loop_body
  rw [h]

theorem line_entry_congr (l1 l2 : List Char)
    (h : trim_whitespace (cstr l1) = trim_whitespace (cstr l2)) :
    line_entry l1 = line_entry l2 := by
  unfold line_entry
  rw [h]

/-- Whitespace after a text without newline does not change what the loop
does with it, however the buffers fall. -/
theorem run_lines_append_space (override : Bool) (L w : List Char) (st : load_state)
    (hnl : '\n' ∉ L) (hw : ∀ c ∈ w, isspace c = true) :
    run_lines override (lines_of (L ++ w)) st = run_lines override (lines_of L) st := by
  generalize hn : L.length = n
  induction n using Nat.strong_induction_on generalizing L st with
  | _ n ih =>
    by_cases hL : L = []
    · subst hL
      rw [List.nil_append, run_lines_blank _ _ _ hw]
      rfl
    · by_cases hlen : L.length ≤ LINE_SIZE - 1
      · have happ := fgets_read_append (LINE_SIZE - 1 - L.length) w
        have h1 : ∀ c ∈ (fgets_read (LINE_SIZE - 1 - L.length) w).1, isspace c = true :=
          fun c hc => hw c (by rw [← happ]; exact List.mem_append_left _ hc)
        have h2 : ∀ c ∈ (fgets_read (LINE_SIZE - 1 - L.length) w).2, isspace c = true :=
          fun c hc => hw c (by rw [← happ]; exact List.mem_append_right _ hc)
        rw [lines_of_ne_nil _ (by simp [hL]), fgets_read_of_no_newline _ _ _ hnl hlen,
          run_lines_cons, run_lines_blank _ _ _ h2, lines_of_last _ hnl hL hlen,
          run_lines_cons, run_lines_nil]
        exact loop_body_congr _ _ _ _ (trim_cstr_append_space _ _ h1)
      · have hsplit : L = L.take (LINE_SIZE - 1) ++ L.drop (LINE_SIZE - 1) :=
          (List.take_append_drop _ _).symm
        have hnl1 : '\n' ∉ L.take (LINE_SIZE - 1) :=
          fun h => hnl (List.mem_of_mem_take h)
        have hnl2 : '\n' ∉ L.drop (LINE_SIZE - 1) :=
          fun h => hnl (List.mem_of_mem_drop h)
        have hl1 : (L.take (LINE_SIZE - 1)).length = LINE_SIZE - 1 := by
          rw [List.length_take]; omega
        have hl2 : (L.drop (LINE_SIZE - 1)).length < n := by
          rw [List.length_drop, ← hn]
          simp only [LINE_SIZE] at hlen ⊢
          omega
        have e1 : L ++ w = L.take (LINE_SIZE - 1) ++ (L.drop (LINE_SIZE - 1) ++ w) := by
          rw [← List.append_assoc, List.take_append_drop]
        rw [e1, lines_of_full_buffer _ _ hnl1 hl1, run_lines_cons,
          ih _ hl2 _ _ hnl2 rfl]
        conv_rhs => rw [hsplit, lines_of_full_buffer _ _ hnl1 hl1, run_lines_cons]

theorem crlf_cons (c : Char) (cs : List Char) :
    crlf (c :: cs) = if c = '\n' then '\r' :: '\n' :: crlf cs else c :: crlf cs := rfl

theorem crlf_of_no_newline (L : List Char) (h : '\n' ∉ L) : crlf L = L := by
  induction L with
  | nil => rfl
  | cons c cs ih =>
    have hc : c ≠ '\n' := fun e => h (by simp [e])
    rw [crlf_cons, if_neg hc, ih (fun e => h (by simp [e]))]

theorem crlf_line (L rest : List Char) (h : '\n' ∉ L) :
    crlf (L ++ '\n' :: rest) = L ++ '\r' :: '\n' :: crlf rest := by
  induction L with
  | nil => simp [crlf]
  | cons c cs ih =>
    have hc : c ≠ '\n' := fun e => h (by simp [e])
    rw [List.cons_append, crlf_cons, if_neg hc, ih (fun e => h (by simp [e]))]
    rfl

theorem run_lines_crlf (override : Bool) (s : List Char) (st : load_state) :
    run_lines override (lines_of (crlf s)) st = run_lines override (lines_of s) st := by
  generalize hn : s.length = n
  induction n using Nat.strong_induction_on generalizing s st with
  | _ n ih =>
    by_cases hm : '\n' ∈ s
    · obtain ⟨rest, hr, hL⟩ := mem_split_first _ _ hm
      generalize s.takeWhile (fun c => c != '\n') = L at hr hL
      subst hr
      have e1 : L ++ '\n' :: rest = (L ++ ['\n']) ++ rest := by simp
      have e2 : L ++ '\r' :: '\n' :: crlf rest = (L ++ ['\r', '\n']) ++ crlf rest := by simp
      have hlt : rest.length < n := by
        rw [← hn, List.length_append, List.length_cons]; omega
      rw [crlf_line _ _ hL, e2, lines_of_append _ _ (Or.inr (by simp)), run_lines_append,
        run_lines_append_space _ _ _ _ hL (by decide), ih _ hlt _ _ rfl]
      conv_rhs =>
        rw [e1, lines_of_append _ _ (Or.inr (by simp)), run_lines_append,
          run_lines_append_space _ _ _ _ hL (by decide)]
    · rw [crlf_of_no_newline _ hm]

/-- C12: line endings do not matter.  Replacing every newline of a file by
carriage return, newline leaves the result of `dotenv_load` (environment and
diagnostics) unchanged, for either override setting; a line text `s`, `s`
followed by a newline and `s` followed by carriage return, newline are
treated alike by the loop (skipped, accepted with the same entry, or rejected
with the same message); and the name of an accepted entry has no carriage
return. -/
theorem crlf_line_endings (content : List Char) (override : Bool) (env : Env) :
    dotenv_load (some (crlf content)) override env
        = dotenv_load (some content) override env ∧
      (∀ (s : List Char) (st : load_state),
        loop_body override (s ++ ['\n']) st = loop_body override s st ∧
        loop_body override (s ++ ['\r', '\n']) st = loop_body override s st) ∧
      (∀ s : List Char,
        line_entry (s ++ ['\n']) = line_entry s ∧
        line_entry (s ++ ['\r', '\n']) = line_entry s) ∧
      (∀ (l : List Char) (e : dotenv_entry), line_entry l = some e → '\r' ∉ e.name) := by
  have h1 : ∀ s : List Char,
      trim_whitespace (cstr (s ++ ['\n'])) = trim_whitespace (cstr s) :=
    fun s => trim_cstr_append_space s _ (by decide)
  have h2 : ∀ s : List Char,
      trim_whitespace (cstr (s ++ ['\r', '\n'])) = trim_whitespace (cstr s) :=
    fun s => trim_cstr_append_space s _ (by decide)
  refine ⟨?_, fun s st => ⟨loop_body_congr _ _ _ _ (h1 s), loop_body_congr _ _ _ _ (h2 s)⟩,
    fun s => ⟨line_entry_congr _ _ (h1 s), line_entry_congr _ _ (h2 s)⟩, ?_⟩
  · rw [dotenv_load_some, dotenv_load_some, run_lines_crlf]
  · intro l e he hm
    have := name_char_not_space (valid_name_chars (line_entry_name he) _ hm)
    revert this
    decide

/-! ## Comment lines longer than the line buffer -/

/-- C10 fails on the code for a comment line longer than the line buffer: the
one-line file `#`, 1022 `c`, `A=1` starts with `#` and yet sets `A`, and the
one-line file `#`, 1022 `c`, `junk` prints `Skipping invalid line: junk`,
because `fgets` hands the tail of the line to the loop as a line of its own.
A comment or blank line that reaches the loop in one buffer is ignored: the
loop state, environment and diagnostics, is left as it is. -/
theorem long_comment_line_parsed :
    ((('#' :: List.replicate 1022 'c') ++ "A=1".toList).dropWhile isspace).head? = some '#' ∧
      '\n' ∉ ('#' :: List.replicate 1022 'c') ++ "A=1".toList ∧
      (dotenv_load (some (('#' :: List.replicate 1022 'c') ++ "A=1".toList)) true
        empty_env).env "A".toList = some "1".toList ∧
      (dotenv_load (some (('#' :: List.replicate 1022 'c') ++ "junk".toList)) true
        empty_env).err = [Diag.skipping "junk".toList] ∧
      (∀ (line : List Char) (override : Bool) (st : load_state),
        ((∀ c ∈ line, isspace c = true) ∨ (line.dropWhile isspace).head? = some '#') →
        loop_body override line st = st) := by
  have hc : '\n' ∉ List.replicate 1022 'c' :=
    fun h => absurd (List.eq_of_mem_replicate h) (by decide)
  have hnl : '\n' ∉ '#' :: List.replicate 1022 'c' := by
    intro h
    rcases List.mem_cons.1 h with h | h
    · revert h; decide
    · exact hc h
  have hlen : ('#' :: List.replicate 1022 'c').length = LINE_SIZE - 1 := by
    rw [List.length_cons, List.length_replicate]; rfl
  have hhead : (('#' :: List.replicate 1022 'c').dropWhile isspace).head? = some '#' := by
    rw [List.dropWhile_cons_of_neg (by decide)]; rfl
  have hskip : ∀ st : load_state,
      loop_body true ('#' :: List.replicate 1022 'c') st = st :=
    fun st => (loop_body_blank_or_comment _ (Or.inr hhead)).1 true st
  refine ⟨?_, ?_, ?_, ?_, fun line override st h =>
    (loop_body_blank_or_comment line h).1 override st⟩
  · rw [List.cons_append, List.dropWhile_cons_of_neg (by decide)]; rfl
  · intro h
    rcases List.mem_append.1 h with h | h
    · exact hnl h
    · revert h; decide
  · have hB : (is_valid_variable_name "A".toList).1 = true := by decide
    rw [dotenv_load_some, lines_of_full_buffer _ _ hnl hlen,
      lines_of_last "A=1".toList (by decide) (by decide) (by decide), run_lines_cons,
      run_lines_cons, run_lines_nil, hskip, loop_body_env]
    have h2 : line_entry "A=1".toList = some { name := "A".toList, value := "1".toList } := by
      decide
    simp only [h2, true_or, if_true]
    rw [setenv_valid hB]
    exact if_pos rfl
  · rw [dotenv_load_some, lines_of_full_buffer _ _ hnl hlen,
      lines_of_last "junk".toList (by decide) (by decide) (by decide), run_lines_cons,
      run_lines_cons, run_lines_nil, hskip]
    decide

end Dotenv
